/-
A verification development for the core of a GraphQL server library
(parser, validation, execution context).  Each definition is a shallow
embedding of a function or data type of the Rust source; theorems settle
the claims of the specification against those definitions.

The source contains two coexisting AST shapes (the spec records this):
`parser/value.rs` defines a span-carrying `Value` (embedded below as
`SValue`), while `context.rs` and the validation rules operate on a
span-free `Value` whose objects are keyed by plain strings (embedded
below as `GValue`).  Both are modelled.

Modelling conventions:
* Rust `BTreeMap` is modelled as an association list with unique keys
  (the `BTreeMap` invariant); theorems that depend on key uniqueness
  take a `Nodup` hypothesis.
* `f64` payloads are abstracted as an opaque payload type `F64` (an
  `Int` tag): none of the embedded functions inspects floats, they only
  carry and compare them, so the payload identity is all that matters.
* Code that panics (`unwrap` of a missing value) is modelled with
  `Option`, `none` standing for the panic.
-/
import Mathlib

namespace GQL

/-- One-based source position, from `parser/span.rs` (`Pos`). -/
structure Pos where
  line : Nat
  column : Nat
deriving DecidableEq, Repr

/-- Abstract model of an IEEE `f64` payload.  The embedded code never
computes with floats, it only stores and compares them, so the payload
is an opaque tag.  (IEEE peculiarities such as `NaN != NaN` are outside
this model.) -/
abbrev F64 := Int

/-- The span-free query value used by `context.rs` (`crate::Value`):
`Null`, `Variable`, `Int(i64)`, `Float(f64)`, `String`, `Boolean`,
`Enum`, `List(Vec<Value>)`, `Object(BTreeMap<String, Value>)`.
The object map is modelled as an association list. -/
inductive GValue where
  | null : GValue
  | var (name : String) : GValue
  | int (n : Int) : GValue
  | float (f : F64) : GValue
  | string (s : String) : GValue
  | boolean (b : Bool) : GValue
  | enum (name : String) : GValue
  | list (xs : List GValue) : GValue
  | object (fields : List (String × GValue)) : GValue

mutual

/-- Structural equality of `GValue`s, the derived `PartialEq` of the
span-free `Value`: objects (`BTreeMap`) compare as their sorted pair
sequences, lists element-wise. -/
def gbeq : GValue → GValue → Bool
  | .null, .null => true
  | .var a, .var b => a == b
  | .int a, .int b => a == b
  | .float a, .float b => a == b
  | .string a, .string b => a == b
  | .boolean a, .boolean b => a == b
  | .enum a, .enum b => a == b
  | .list a, .list b => gbeqList a b
  | .object a, .object b => gbeqObj a b
  | _, _ => false
termination_by a _ => sizeOf a

/-- Element-wise comparison of value lists. -/
def gbeqList : List GValue → List GValue → Bool
  | [], [] => true
  | a :: ar, b :: br => gbeq a b && gbeqList ar br
  | _, _ => false
termination_by a _ => sizeOf a

/-- Pair-wise comparison of object entry lists. -/
def gbeqObj : List (String × GValue) → List (String × GValue) → Bool
  | [], [] => true
  | (ka, va) :: ar, (kb, vb) :: br => ka == kb && gbeq va vb && gbeqObj ar br
  | _, _ => false
termination_by a _ => sizeOf a

end

mutual

theorem gbeq_iff_eq : ∀ (a b : GValue), gbeq a b = true ↔ a = b
  | .null, b => by cases b <;> simp [gbeq]
  | .var s, b => by cases b <;> simp [gbeq]
  | .int n, b => by cases b <;> simp [gbeq]
  | .float f, b => by cases b <;> simp [gbeq]
  | .string s, b => by cases b <;> simp [gbeq]
  | .boolean v, b => by cases b <;> simp [gbeq]
  | .enum s, b => by cases b <;> simp [gbeq]
  | .list xs, b => by
      cases b <;> simp [gbeq]
      exact gbeqList_iff_eq xs _
  | .object fs, b => by
      cases b <;> simp [gbeq]
      exact gbeqObj_iff_eq fs _
termination_by a _ => sizeOf a

theorem gbeqList_iff_eq : ∀ (a b : List GValue), gbeqList a b = true ↔ a = b
  | [], b => by cases b <;> simp [gbeqList]
  | x :: xr, [] => by simp [gbeqList]
  | x :: xr, y :: yr => by
      simp [gbeqList, gbeq_iff_eq x y, gbeqList_iff_eq xr yr]
termination_by a _ => sizeOf a

theorem gbeqObj_iff_eq :
    ∀ (a b : List (String × GValue)), gbeqObj a b = true ↔ a = b
  | [], b => by cases b <;> simp [gbeqObj]
  | x :: xr, [] => by simp [gbeqObj]
  | (ka, va) :: xr, (kb, vb) :: yr => by
      simp [gbeqObj, gbeq_iff_eq va vb, gbeqObj_iff_eq xr yr, and_assoc]
termination_by a _ => sizeOf a

end

instance : DecidableEq GValue := fun a b => decidable_of_iff _ (gbeq_iff_eq a b)

/-- First-match lookup in an association list, the model of
`BTreeMap::get` (keys are unique in a `BTreeMap`, so the first match is
the only match). -/
def lookupAssoc {α : Type} (m : List (String × α)) (k : String) : Option α :=
  match m with
  | [] => none
  | (k', v) :: rest => if k' = k then some v else lookupAssoc rest k

/-- The error taxonomy of `QueryError`, restricted to the variants the
embedded functions produce.  Message strings are elided; the payloads
the source stores are kept. -/
inductive QueryError where
  | varNotDefined (varName : String)
  | expectedType (expect : String) (actual : GValue)
  | unknownDirective (name : String)
  | requiredDirectiveArgs (directive : String) (argName : String) (argType : String)
deriving DecidableEq

/-- `QueryError::into_error(pos)`: an error paired with a position. -/
structure PositionedErr where
  err : QueryError
  pos : Pos
deriving DecidableEq

/-- `Result<T>` of the source. -/
abbrev RResult (α : Type) := Except PositionedErr α

/-- A variable definition as `var_value` consumes it: the name and the
optional default.  (`var_type` is carried by the AST but never read by
the embedded functions, so it is elided.) -/
structure VarDef where
  name : String
  default_value : Option GValue
deriving DecidableEq

/-- The slice of `ContextBase` that variable resolution reads:
`variables` (the deref of `Variables`, a `BTreeMap<String, Value>`) and
`variable_definitions`. -/
structure VarCtx where
  /-- the `variables` field (`variables` is a reserved word in Lean) -/
  vars : List (String × GValue)
  variable_definitions : List VarDef

/-- `ContextBase::var_value` (context.rs:381-397): find the first
variable definition with the given name; if the variables map holds the
name return that value, else the declared default, else
`VarNotDefined`; a name with no definition is `VarNotDefined` as well. -/
def var_value (ctx : VarCtx) (name : String) (pos : Pos) : RResult GValue :=
  match ctx.variable_definitions.find? (fun d => d.name = name) with
  | some vdef =>
      match lookupAssoc ctx.vars vdef.name with
      | some v => .ok v
      | none =>
          match vdef.default_value with
          | some d => .ok d
          | none => .error ⟨.varNotDefined name, pos⟩
  | none => .error ⟨.varNotDefined name, pos⟩

/-- The list arm of `resolve_input_value`: walk the elements in order,
replacing a direct `Variable` child by its resolved value; the first
resolution failure aborts (`?` operator). -/
def resolveListVals (ctx : VarCtx) (pos : Pos) :
    List GValue → RResult (List GValue)
  | [] => .ok []
  | v :: rest =>
      match v with
      | .var name =>
          match var_value ctx name pos with
          | .error e => .error e
          | .ok rv => (resolveListVals ctx pos rest).map (fun ys => rv :: ys)
      | other => (resolveListVals ctx pos rest).map (fun ys => other :: ys)

/-- The object arm of `resolve_input_value`: walk `obj.values_mut()` in
order, replacing direct `Variable` values, keys untouched. -/
def resolveObjVals (ctx : VarCtx) (pos : Pos) :
    List (String × GValue) → RResult (List (String × GValue))
  | [] => .ok []
  | (k, v) :: rest =>
      match v with
      | .var name =>
          match var_value ctx name pos with
          | .error e => .error e
          | .ok rv => (resolveObjVals ctx pos rest).map (fun ys => (k, rv) :: ys)
      | other => (resolveObjVals ctx pos rest).map (fun ys => (k, other) :: ys)

/-- `ContextBase::resolve_input_value` (context.rs:399-420): a top-level
`Variable` is resolved; a `List` or `Object` has its direct `Variable`
children resolved; everything else is returned unchanged. -/
def resolve_input_value (ctx : VarCtx) (value : GValue) (pos : Pos) :
    RResult GValue :=
  match value with
  | .var name => var_value ctx name pos
  | .list ls => (resolveListVals ctx pos ls).map GValue.list
  | .object obj => (resolveObjVals ctx pos obj).map GValue.object
  | other => .ok other

/-- Modelled from the spec: `InputValueType::parse` for `bool` (the
built-in Boolean scalar), whose implementation is not under src/.  Per
the spec the `if:` argument "must coerce to Boolean", so exactly
`Boolean` values parse. -/
def boolParse : GValue → Option Bool
  | .boolean b => some b
  | _ => none

/-- Modelled from the spec: `bool::qualified_type_name()`, the expected
type name reported by an `ExpectedType` error for the `if:` argument
(`Boolean!` per the spec's directive signatures). -/
def boolQualifiedTypeName : String := "Boolean!"

/-- A directive argument value as `is_skip` reads it: a `Spanned<Value>`
(value plus its position). -/
structure DirArg where
  value : GValue
  pos : Pos
deriving DecidableEq

/-- A `Spanned<Directive>` as `is_skip` reads it: name, argument map
(`BTreeMap` keyed by argument name) and the directive's position. -/
structure DirectiveD where
  name : String
  arguments : List (String × DirArg)
  pos : Pos
deriving DecidableEq

/-- `ContextBase::is_skip` (context.rs:422-476): scan the directive
list in order; `@skip` whose resolved `if` parses to `true` or
`@include` whose resolved `if` parses to `false` returns `Ok(true)`
immediately; a missing `if` argument is `RequiredDirectiveArgs`; an
`if` value that does not parse as Boolean is `ExpectedType`; any other
directive name is `UnknownDirective`; a fully scanned list returns
`Ok(false)`. -/
def is_skip (ctx : VarCtx) : List DirectiveD → RResult Bool
  | [] => .ok false
  | d :: rest =>
      if d.name = "skip" then
        match lookupAssoc d.arguments "if" with
        | some a =>
            match resolve_input_value ctx a.value a.pos with
            | .error e => .error e
            | .ok value =>
                match boolParse value with
                | none => .error ⟨.expectedType boolQualifiedTypeName value, d.pos⟩
                | some true => .ok true
                | some false => is_skip ctx rest
        | none => .error ⟨.requiredDirectiveArgs "@skip" "if" "Boolean!", d.pos⟩
      else if d.name = "include" then
        match lookupAssoc d.arguments "if" with
        | some a =>
            match resolve_input_value ctx a.value a.pos with
            | .error e => .error e
            | .ok value =>
                match boolParse value with
                | none => .error ⟨.expectedType boolQualifiedTypeName value, d.pos⟩
                | some false => .ok true
                | some true => is_skip ctx rest
        | none => .error ⟨.requiredDirectiveArgs "@include" "if" "Boolean!", d.pos⟩
      else
        .error ⟨.unknownDirective d.name, d.pos⟩

/-- Discriminator for direct `Variable` children. -/
def GValue.isVar : GValue → Bool
  | .var _ => true
  | _ => false

/-- Claim-side description of what `resolve_input_value` does to one
direct child: a `Variable` is replaced by its resolved value, anything
else is left unchanged. -/
def substDirect (ctx : VarCtx) (pos : Pos) (v : GValue) : RResult GValue :=
  match v with
  | .var name => var_value ctx name pos
  | other => .ok other

/-- Claim-side error-propagating traversal of list elements (the first
failing child aborts the whole resolution). -/
def mapExcept (f : GValue → RResult GValue) : List GValue → RResult (List GValue)
  | [] => .ok []
  | x :: rest =>
      match f x with
      | .error e => .error e
      | .ok y =>
          match mapExcept f rest with
          | .error e => .error e
          | .ok ys => .ok (y :: ys)

/-- Claim-side error-propagating traversal of object values, keys
untouched. -/
def mapValuesExcept (f : GValue → RResult GValue) :
    List (String × GValue) → RResult (List (String × GValue))
  | [] => .ok []
  | (k, x) :: rest =>
      match f x with
      | .error e => .error e
      | .ok y =>
          match mapValuesExcept f rest with
          | .error e => .error e
          | .ok ys => .ok ((k, y) :: ys)

theorem substDirect_not_var (ctx : VarCtx) (pos : Pos) (v : GValue)
    (hx : ∀ n, v ≠ GValue.var n) : substDirect ctx pos v = .ok v := by
  cases v with
  | var n => exact absurd rfl (hx n)
  | null => rfl
  | int n => rfl
  | float f => rfl
  | string s => rfl
  | boolean b => rfl
  | enum s => rfl
  | list xs => rfl
  | object fs => rfl

theorem resolveListVals_eq_mapExcept (ctx : VarCtx) (pos : Pos) :
    ∀ xs : List GValue,
      resolveListVals ctx pos xs = mapExcept (substDirect ctx pos) xs := by
  intro xs
  induction xs with
  | nil => rfl
  | cons x rest ih =>
      by_cases hx : ∃ n, x = GValue.var n
      · obtain ⟨n, rfl⟩ := hx
        simp only [resolveListVals, mapExcept, substDirect, ih]
        cases var_value ctx n pos <;>
          cases mapExcept (substDirect ctx pos) rest <;> simp [Except.map]
      · push_neg at hx
        have h1 : resolveListVals ctx pos (x :: rest) =
            (resolveListVals ctx pos rest).map (fun ys => x :: ys) := by
          cases x with
          | var n => exact absurd rfl (hx n)
          | null => rfl
          | int n => rfl
          | float f => rfl
          | string s => rfl
          | boolean b => rfl
          | enum s => rfl
          | list xs2 => rfl
          | object fs2 => rfl
        rw [h1, ih]
        simp only [mapExcept, substDirect_not_var ctx pos x hx]
        cases mapExcept (substDirect ctx pos) rest <;> simp [Except.map]

theorem resolveObjVals_eq_mapValuesExcept (ctx : VarCtx) (pos : Pos) :
    ∀ fs : List (String × GValue),
      resolveObjVals ctx pos fs = mapValuesExcept (substDirect ctx pos) fs := by
  intro fs
  induction fs with
  | nil => rfl
  | cons kv rest ih =>
      obtain ⟨k, x⟩ := kv
      by_cases hx : ∃ n, x = GValue.var n
      · obtain ⟨n, rfl⟩ := hx
        simp only [resolveObjVals, mapValuesExcept, substDirect, ih]
        cases var_value ctx n pos <;>
          cases mapValuesExcept (substDirect ctx pos) rest <;> simp [Except.map]
      · push_neg at hx
        have h1 : resolveObjVals ctx pos ((k, x) :: rest) =
            (resolveObjVals ctx pos rest).map (fun ys => (k, x) :: ys) := by
          cases x with
          | var n => exact absurd rfl (hx n)
          | null => rfl
          | int n => rfl
          | float f => rfl
          | string s => rfl
          | boolean b => rfl
          | enum s => rfl
          | list xs2 => rfl
          | object fs2 => rfl
        rw [h1, ih]
        simp only [mapValuesExcept, substDirect_not_var ctx pos x hx]
        cases mapValuesExcept (substDirect ctx pos) rest <;> simp [Except.map]

theorem mapExcept_substDirect_ok (ctx : VarCtx) (pos : Pos) :
    ∀ (xs ys : List GValue),
      mapExcept (substDirect ctx pos) xs = .ok ys →
      ys.length = xs.length ∧
        ∀ i (h : i < xs.length) (h' : i < ys.length),
          (xs.get ⟨i, h⟩).isVar = false → ys.get ⟨i, h'⟩ = xs.get ⟨i, h⟩ := by
  intro xs
  induction xs with
  | nil =>
      intro ys hy
      simp only [mapExcept] at hy
      cases hy
      simp
  | cons x rest ih =>
      intro ys hy
      simp only [mapExcept] at hy
      cases hx : substDirect ctx pos x with
      | error e => rw [hx] at hy; cases hy
      | ok y =>
          rw [hx] at hy
          cases hrest : mapExcept (substDirect ctx pos) rest with
          | error e => rw [hrest] at hy; cases hy
          | ok ys' =>
              rw [hrest] at hy
              cases hy
              obtain ⟨hlen, helem⟩ := ih ys' hrest
              refine ⟨by simp [hlen], ?_⟩
              intro i h h' hnv
              cases i with
              | zero =>
                  cases x <;> simp [GValue.isVar] at hnv <;>
                    simp only [substDirect] at hx <;> cases hx <;> rfl
              | succ j =>
                  simp only [List.length_cons, Nat.succ_lt_succ_iff] at h h'
                  simpa using helem j h (by simpa [hlen] using h')
                    (by simpa using hnv)

theorem mapValuesExcept_substDirect_ok (ctx : VarCtx) (pos : Pos) :
    ∀ (fs gs : List (String × GValue)),
      mapValuesExcept (substDirect ctx pos) fs = .ok gs →
      gs.map Prod.fst = fs.map Prod.fst ∧
        ∀ i (h : i < fs.length) (h' : i < gs.length),
          ((fs.get ⟨i, h⟩).2).isVar = false → gs.get ⟨i, h'⟩ = fs.get ⟨i, h⟩ := by
  intro fs
  induction fs with
  | nil =>
      intro gs hg
      simp only [mapValuesExcept] at hg
      cases hg
      simp
  | cons kv rest ih =>
      obtain ⟨k, x⟩ := kv
      intro gs hg
      simp only [mapValuesExcept] at hg
      cases hx : substDirect ctx pos x with
      | error e => rw [hx] at hg; cases hg
      | ok y =>
          rw [hx] at hg
          cases hrest : mapValuesExcept (substDirect ctx pos) rest with
          | error e => rw [hrest] at hg; cases hg
          | ok gs' =>
              rw [hrest] at hg
              cases hg
              obtain ⟨hkeys, helem⟩ := ih gs' hrest
              refine ⟨by simp [hkeys], ?_⟩
              intro i h h' hnv
              cases i with
              | zero =>
                  cases x <;> simp [GValue.isVar] at hnv <;>
                    simp only [substDirect] at hx <;> cases hx <;> rfl
              | succ j =>
                  simp only [List.length_cons, Nat.succ_lt_succ_iff] at h h'
                  simpa using helem j h (by simpa using h') (by simpa using hnv)

/-- C3 (counterexample): the claim says a value supplied in `variables`
is returned whenever the name is looked up, but `var_value` first
requires a variable *definition* for the name: with `variables`
containing `n ↦ 5` and an empty definition list, the lookup yields
`VarNotDefined` instead of `Ok(5)`. -/
theorem c3_counterexample :
    lookupAssoc [("n", GValue.int 5)] "n" = some (GValue.int 5) ∧
    var_value ⟨[("n", GValue.int 5)], []⟩ "n" ⟨1, 2⟩ =
      .error ⟨.varNotDefined "n", ⟨1, 2⟩⟩ :=
  ⟨rfl, rfl⟩

/-- C3 (amended): provided the operation declares a variable definition
for the name, `var_value` returns the value stored in `variables` under
that name if present (overriding any declared default), else the
definition's default if one exists, else a `VarNotDefined` error; a
name without a definition yields `VarNotDefined` regardless of the
`variables` map. -/
theorem var_value_characterization (ctx : VarCtx) (name : String) (pos : Pos) :
    (∀ vdef,
      ctx.variable_definitions.find? (fun d => d.name = name) = some vdef →
        ((∀ v, lookupAssoc ctx.vars name = some v →
            var_value ctx name pos = .ok v) ∧
         (∀ d, lookupAssoc ctx.vars name = none → vdef.default_value = some d →
            var_value ctx name pos = .ok d) ∧
         (lookupAssoc ctx.vars name = none → vdef.default_value = none →
            var_value ctx name pos = .error ⟨.varNotDefined name, pos⟩))) ∧
    (ctx.variable_definitions.find? (fun d => d.name = name) = none →
      var_value ctx name pos = .error ⟨.varNotDefined name, pos⟩) := by
  constructor
  · intro vdef hfind
    have hname : vdef.name = name := by
      have := List.find?_some hfind
      simpa using this
    refine ⟨?_, ?_, ?_⟩
    · intro v hv
      simp only [var_value, hfind, hname, hv]
    · intro d hnone hd
      simp only [var_value, hfind, hname, hnone, hd]
    · intro hnone hd
      simp only [var_value, hfind, hname, hnone, hd]
  · intro hfind
    simp only [var_value, hfind]

/-- Witness for `var_value_characterization` at a concrete context. -/
theorem var_value_characterization_witness :
    var_value ⟨[("n", GValue.int 5)], [⟨"n", none⟩]⟩ "n" ⟨1, 1⟩ =
      .ok (GValue.int 5) :=
  ((var_value_characterization ⟨[("n", GValue.int 5)], [⟨"n", none⟩]⟩
      "n" ⟨1, 1⟩).1 ⟨"n", none⟩ rfl).1 (GValue.int 5) rfl

/-- C4: `resolve_input_value` resolves a top-level `Variable`, resolves
exactly the direct `Variable` children of a top-level `List` or
`Object` (propagating the resolution errors), leaves any other value
unchanged, and in a successful `List`/`Object` resolution every
non-`Variable` element (hence every `Variable` nested two or more
levels deep) and every object key is returned unchanged. -/
theorem resolve_input_value_shallow (ctx : VarCtx) (pos : Pos) :
    (∀ name, resolve_input_value ctx (GValue.var name) pos =
      var_value ctx name pos) ∧
    (∀ v, (∀ n, v ≠ GValue.var n) → (∀ xs, v ≠ GValue.list xs) →
      (∀ fs, v ≠ GValue.object fs) →
      resolve_input_value ctx v pos = .ok v) ∧
    (∀ xs, resolve_input_value ctx (GValue.list xs) pos =
      (mapExcept (substDirect ctx pos) xs).map GValue.list) ∧
    (∀ fs, resolve_input_value ctx (GValue.object fs) pos =
      (mapValuesExcept (substDirect ctx pos) fs).map GValue.object) ∧
    (∀ xs w, resolve_input_value ctx (GValue.list xs) pos = .ok w →
      ∃ ys, w = GValue.list ys ∧ ys.length = xs.length ∧
        ∀ i (h : i < xs.length) (h' : i < ys.length),
          (xs.get ⟨i, h⟩).isVar = false → ys.get ⟨i, h'⟩ = xs.get ⟨i, h⟩) ∧
    (∀ fs w, resolve_input_value ctx (GValue.object fs) pos = .ok w →
      ∃ gs, w = GValue.object gs ∧ gs.map Prod.fst = fs.map Prod.fst ∧
        ∀ i (h : i < fs.length) (h' : i < gs.length),
          ((fs.get ⟨i, h⟩).2).isVar = false →
            gs.get ⟨i, h'⟩ = fs.get ⟨i, h⟩) := by
  have hlist : ∀ xs, resolve_input_value ctx (GValue.list xs) pos =
      (mapExcept (substDirect ctx pos) xs).map GValue.list := by
    intro xs
    simp only [resolve_input_value, resolveListVals_eq_mapExcept]
  have hobj : ∀ fs, resolve_input_value ctx (GValue.object fs) pos =
      (mapValuesExcept (substDirect ctx pos) fs).map GValue.object := by
    intro fs
    simp only [resolve_input_value, resolveObjVals_eq_mapValuesExcept]
  refine ⟨fun name => rfl, ?_, hlist, hobj, ?_, ?_⟩
  · intro v hvar hl ho
    cases v with
    | var n => exact absurd rfl (hvar n)
    | list xs => exact absurd rfl (hl xs)
    | object fs => exact absurd rfl (ho fs)
    | null => rfl
    | int n => rfl
    | float f => rfl
    | string s => rfl
    | boolean b => rfl
    | enum s => rfl
  · intro xs w hw
    rw [hlist xs] at hw
    cases hm : mapExcept (substDirect ctx pos) xs with
    | error e => rw [hm] at hw; cases hw
    | ok ys =>
        rw [hm] at hw
        cases hw
        obtain ⟨hlen, helem⟩ := mapExcept_substDirect_ok ctx pos xs ys hm
        exact ⟨ys, rfl, hlen, helem⟩
  · intro fs w hw
    rw [hobj fs] at hw
    cases hm : mapValuesExcept (substDirect ctx pos) fs with
    | error e => rw [hm] at hw; cases hw
    | ok gs =>
        rw [hm] at hw
        cases hw
        obtain ⟨hkeys, helem⟩ := mapValuesExcept_substDirect_ok ctx pos fs gs hm
        exact ⟨gs, rfl, hkeys, helem⟩

/-- Witness for `resolve_input_value_shallow`: a non-variable,
non-container value passes through unchanged, at a concrete input. -/
theorem resolve_input_value_shallow_witness :
    resolve_input_value ⟨[], []⟩ (GValue.int 7) ⟨1, 1⟩ = .ok (GValue.int 7) :=
  (resolve_input_value_shallow ⟨[], []⟩ ⟨1, 1⟩).2.1 (GValue.int 7)
    (fun n h => by cases h) (fun xs h => by cases h) (fun fs h => by cases h)

/-- Claim-side evaluation of a directive's `if:` argument: the argument
looked up, resolved against the variables and parsed as Boolean;
`none` when any of those steps fails. -/
def dirIfEval (ctx : VarCtx) (d : DirectiveD) : Option Bool :=
  match lookupAssoc d.arguments "if" with
  | some a =>
      match resolve_input_value ctx a.value a.pos with
      | .ok v => boolParse v
      | .error _ => none
  | none => none

/-- A directive that `is_skip` can process without error: named `skip`
or `include`, with an `if:` argument that resolves and coerces to
Boolean. -/
def dirWF (ctx : VarCtx) (d : DirectiveD) : Prop :=
  (d.name = "skip" ∨ d.name = "include") ∧ (dirIfEval ctx d).isSome = true

/-- A directive that makes the field skipped: `@skip` with a true `if:`
or `@include` with a false `if:`. -/
def dirTriggers (ctx : VarCtx) (d : DirectiveD) : Prop :=
  (d.name = "skip" ∧ dirIfEval ctx d = some true) ∨
  (d.name = "include" ∧ dirIfEval ctx d = some false)

instance (ctx : VarCtx) (d : DirectiveD) : Decidable (dirWF ctx d) := by
  unfold dirWF; infer_instance

instance (ctx : VarCtx) (d : DirectiveD) : Decidable (dirTriggers ctx d) := by
  unfold dirTriggers; infer_instance

theorem dirIfEval_some (ctx : VarCtx) (d : DirectiveD) (b : Bool) :
    dirIfEval ctx d = some b ↔
      ∃ a v, lookupAssoc d.arguments "if" = some a ∧
        resolve_input_value ctx a.value a.pos = .ok v ∧ boolParse v = some b := by
  unfold dirIfEval
  cases hl : lookupAssoc d.arguments "if" with
  | none => simp [hl]
  | some a =>
      cases hr : resolve_input_value ctx a.value a.pos with
      | error e => simp [hr]
      | ok v => simp [hr]

theorem is_skip_skip_step (ctx : VarCtx) (d : DirectiveD) (rest : List DirectiveD)
    (hname : d.name = "skip") (b : Bool) (hb : dirIfEval ctx d = some b) :
    is_skip ctx (d :: rest) = if b then .ok true else is_skip ctx rest := by
  obtain ⟨a, v, hl, hr, hp⟩ := (dirIfEval_some ctx d b).mp hb
  simp only [is_skip, hname, if_pos rfl, hl, hr, hp]
  cases b <;> rfl

theorem is_skip_include_step (ctx : VarCtx) (d : DirectiveD)
    (rest : List DirectiveD) (hname : d.name = "include") (b : Bool)
    (hb : dirIfEval ctx d = some b) :
    is_skip ctx (d :: rest) = if b then is_skip ctx rest else .ok true := by
  obtain ⟨a, v, hl, hr, hp⟩ := (dirIfEval_some ctx d b).mp hb
  have hns : ¬ d.name = "skip" := by simp [hname]
  simp only [is_skip, hname, if_neg hns, if_pos rfl, hl, hr, hp]
  cases b <;> rfl

theorem is_skip_pass_step (ctx : VarCtx) (d : DirectiveD) (rest : List DirectiveD)
    (hwf : dirWF ctx d) (hnt : ¬ dirTriggers ctx d) :
    is_skip ctx (d :: rest) = is_skip ctx rest := by
  obtain ⟨hname, hsome⟩ := hwf
  obtain ⟨b, hb⟩ := Option.isSome_iff_exists.mp hsome
  cases hname with
  | inl hskip =>
      have hbf : b = false := by
        cases b with
        | true => exact absurd (Or.inl ⟨hskip, hb⟩) hnt
        | false => rfl
      rw [is_skip_skip_step ctx d rest hskip b hb, hbf]
      rfl
  | inr hinc =>
      have hbt : b = true := by
        cases b with
        | false => exact absurd (Or.inr ⟨hinc, hb⟩) hnt
        | true => rfl
      rw [is_skip_include_step ctx d rest hinc b hb, hbt]
      rfl

theorem is_skip_clean_append (ctx : VarCtx) (pre rest : List DirectiveD)
    (hpre : ∀ e ∈ pre, dirWF ctx e ∧ ¬ dirTriggers ctx e) :
    is_skip ctx (pre ++ rest) = is_skip ctx rest := by
  induction pre with
  | nil => rfl
  | cons e pr ih =>
      have he := hpre e (by simp)
      rw [List.cons_append, is_skip_pass_step ctx e (pr ++ rest) he.1 he.2]
      exact ih (fun x hx => hpre x (by simp [hx]))

theorem is_skip_trigger_head (ctx : VarCtx) (d : DirectiveD)
    (rest : List DirectiveD) (ht : dirTriggers ctx d) :
    is_skip ctx (d :: rest) = .ok true := by
  cases ht with
  | inl h => rw [is_skip_skip_step ctx d rest h.1 true h.2]; rfl
  | inr h => rw [is_skip_include_step ctx d rest h.1 false h.2]; rfl

theorem is_skip_wf_dichotomy (ctx : VarCtx) :
    ∀ ds : List DirectiveD, (∀ d ∈ ds, dirWF ctx d) →
      is_skip ctx ds = .ok true ∨ is_skip ctx ds = .ok false := by
  intro ds
  induction ds with
  | nil => intro _; right; rfl
  | cons d rest ih =>
      intro hwf
      by_cases ht : dirTriggers ctx d
      · left; exact is_skip_trigger_head ctx d rest ht
      · rw [is_skip_pass_step ctx d rest (hwf d (by simp)) ht]
        exact ih (fun x hx => hwf x (by simp [hx]))

theorem is_skip_wf_true_iff (ctx : VarCtx) :
    ∀ ds : List DirectiveD, (∀ d ∈ ds, dirWF ctx d) →
      (is_skip ctx ds = .ok true ↔ ∃ d ∈ ds, dirTriggers ctx d) := by
  intro ds
  induction ds with
  | nil =>
      intro _
      constructor
      · intro h; cases h
      · intro ⟨d, hd, _⟩; cases hd
  | cons d rest ih =>
      intro hwf
      by_cases ht : dirTriggers ctx d
      · constructor
        · intro _; exact ⟨d, by simp, ht⟩
        · intro _; exact is_skip_trigger_head ctx d rest ht
      · rw [is_skip_pass_step ctx d rest (hwf d (by simp)) ht]
        rw [ih (fun x hx => hwf x (by simp [hx]))]
        constructor
        · intro ⟨x, hx, hxt⟩; exact ⟨x, by simp [hx], hxt⟩
        · intro ⟨x, hx, hxt⟩
          rcases List.mem_cons.mp hx with rfl | hx'
          · exact absurd hxt ht
          · exact ⟨x, hx', hxt⟩

/-- C2 (counterexample): the claim requires `Ok(true)` whenever the
list contains `@skip(if: true)` and an `UnknownDirective` error
whenever an unknown directive appears; with the list
`[@foo, @skip(if: true)]` both clauses apply and the code returns the
`UnknownDirective` error, not `Ok(true)` — the clauses are not
order-sensitive in the claim but the scan is. -/
theorem is_skip_counterexample :
    is_skip ⟨[], []⟩
        [⟨"foo", [], ⟨1, 9⟩⟩,
         ⟨"skip", [("if", ⟨GValue.boolean true, ⟨1, 20⟩⟩)], ⟨1, 14⟩⟩] =
      .error ⟨.unknownDirective "foo", ⟨1, 9⟩⟩ ∧
    dirTriggers ⟨[], []⟩
      ⟨"skip", [("if", ⟨GValue.boolean true, ⟨1, 20⟩⟩)], ⟨1, 14⟩⟩ ∧
    is_skip ⟨[], []⟩
        [⟨"skip", [("if", ⟨GValue.boolean true, ⟨1, 20⟩⟩)], ⟨1, 14⟩⟩,
         ⟨"foo", [], ⟨1, 9⟩⟩] = .ok true := by
  refine ⟨rfl, ?_, rfl⟩
  left
  exact ⟨rfl, rfl⟩

/-- C2 (amended): `is_skip` scans the directive list left to right.
If every directive is well-formed (`skip`/`include` with a resolving,
Boolean-coercing `if:`), the result is `Ok(true)` iff some directive
triggers (`@skip` with true `if:` or `@include` with false `if:`) and
`Ok(false)` iff none does.  The first directive at which the scan stops
determines the error: after a well-formed non-triggering prefix, an
unknown directive yields `UnknownDirective`, a `skip`/`include` without
`if:` yields `RequiredDirectiveArgs`, and a resolving `if:` that does
not coerce to Boolean yields `ExpectedType`. -/
theorem is_skip_scan (ctx : VarCtx) (ds : List DirectiveD) :
    ((∀ d ∈ ds, dirWF ctx d) →
      ((is_skip ctx ds = .ok true ↔ ∃ d ∈ ds, dirTriggers ctx d) ∧
       (is_skip ctx ds = .ok false ↔ ∀ d ∈ ds, ¬ dirTriggers ctx d))) ∧
    (∀ pre d post, ds = pre ++ d :: post →
      (∀ e ∈ pre, dirWF ctx e ∧ ¬ dirTriggers ctx e) →
      ((d.name ≠ "skip" → d.name ≠ "include" →
          is_skip ctx ds = .error ⟨.unknownDirective d.name, d.pos⟩) ∧
       (d.name = "skip" → lookupAssoc d.arguments "if" = none →
          is_skip ctx ds =
            .error ⟨.requiredDirectiveArgs "@skip" "if" "Boolean!", d.pos⟩) ∧
       (d.name = "include" → lookupAssoc d.arguments "if" = none →
          is_skip ctx ds =
            .error ⟨.requiredDirectiveArgs "@include" "if" "Boolean!", d.pos⟩) ∧
       (∀ a v, (d.name = "skip" ∨ d.name = "include") →
          lookupAssoc d.arguments "if" = some a →
          resolve_input_value ctx a.value a.pos = .ok v →
          boolParse v = none →
          is_skip ctx ds =
            .error ⟨.expectedType boolQualifiedTypeName v, d.pos⟩))) := by
  constructor
  · intro hwf
    refine ⟨is_skip_wf_true_iff ctx ds hwf, ?_⟩
    rcases is_skip_wf_dichotomy ctx ds hwf with h | h
    · constructor
      · intro hc
        rw [h] at hc
        simp at hc
      · intro hall
        obtain ⟨d, hd, ht⟩ := (is_skip_wf_true_iff ctx ds hwf).mp h
        exact absurd ht (hall d hd)
    · constructor
      · intro _ d hd ht
        have h2 : is_skip ctx ds = .ok true :=
          (is_skip_wf_true_iff ctx ds hwf).mpr ⟨d, hd, ht⟩
        rw [h] at h2
        simp at h2
      · intro _; exact h
  · intro pre d post hds hpre
    subst hds
    rw [is_skip_clean_append ctx pre (d :: post) hpre]
    refine ⟨?_, ?_, ?_, ?_⟩
    · intro hns hni
      simp only [is_skip, if_neg hns, if_neg hni]
    · intro hs hl
      simp only [is_skip, hs, if_pos rfl, hl]
      simp
    · intro hi hl
      have hns : ¬ d.name = "skip" := by simp [hi]
      simp only [is_skip, if_neg hns, hi, if_pos rfl, hl]
      simp
    · intro a v hname hl hr hp
      cases hname with
      | inl hs =>
          simp only [is_skip, hs, if_pos rfl, hl, hr, hp]
          simp
      | inr hi =>
          have hns : ¬ d.name = "skip" := by simp [hi]
          simp only [is_skip, if_neg hns, hi, if_pos rfl, hl, hr, hp]
          simp

/-- Witness for `is_skip_scan`: a single well-formed
`@include(if: false)` directive triggers, so `is_skip` is `Ok(true)`. -/
theorem is_skip_scan_witness :
    is_skip ⟨[], []⟩
        [⟨"include", [("if", ⟨GValue.boolean false, ⟨2, 4⟩⟩)], ⟨2, 1⟩⟩] =
      .ok true :=
  (((is_skip_scan ⟨[], []⟩
        [⟨"include", [("if", ⟨GValue.boolean false, ⟨2, 4⟩⟩)], ⟨2, 1⟩⟩]).1
      (by intro d hd; rcases List.mem_singleton.mp hd with rfl;
          exact ⟨Or.inr rfl, rfl⟩)).1).mpr
    ⟨⟨"include", [("if", ⟨GValue.boolean false, ⟨2, 4⟩⟩)], ⟨2, 1⟩⟩,
      by simp, Or.inr ⟨rfl, rfl⟩⟩

/-- A `serde_json` number: either an integer (stored as `i64`/`u64`;
`is_f64` false) or a floating value (`is_f64` true).  Integers beyond
the `i64` range make the source panic on `as_i64().unwrap()`; the model
carries an unbounded `Int` and documents that boundary. -/
inductive JNumber where
  | i (n : Int)
  | f (x : F64)

/-- A `serde_json::Value`. -/
inductive JValue where
  | null
  | bool (b : Bool)
  | num (n : JNumber)
  | str (s : String)
  | arr (xs : List JValue)
  | obj (fields : List (String × JValue))

/-- Two's-complement truncation of an integer to `i32`, the semantics
of Rust's `as i32` cast. -/
def wrapI32 (n : Int) : Int := ((n + 2147483648) % 4294967296) - 2147483648

mutual

/-- `json_value_to_gql_value` (context.rs:112-128): null→Null,
bool→Boolean, `is_f64` number→Float, other number→`Int` after an
`as i32` truncation, string→String, array→List element-wise,
object→Object entry-wise. -/
def json_value_to_gql_value : JValue → GValue
  | .null => .null
  | .bool b => .boolean b
  | .num (.f x) => .float x
  | .num (.i n) => .int (wrapI32 n)
  | .str s => .string s
  | .arr xs => .list (jsonListToGql xs)
  | .obj fields => .object (jsonObjToGql fields)
termination_by v => sizeOf v

/-- The `collect()` over a JSON array. -/
def jsonListToGql : List JValue → List GValue
  | [] => []
  | x :: rest => json_value_to_gql_value x :: jsonListToGql rest
termination_by xs => sizeOf xs

/-- The `collect()` over a JSON object's entries. -/
def jsonObjToGql : List (String × JValue) → List (String × GValue)
  | [] => []
  | (k, x) :: rest => (k, json_value_to_gql_value x) :: jsonObjToGql rest
termination_by fs => sizeOf fs

end

/-- `Variables::parse_from_json` (context.rs:47-54): keep the converted
value when it is an object, otherwise fall back to the empty object. -/
def parse_from_json (v : JValue) : GValue :=
  match json_value_to_gql_value v with
  | .object fields => .object fields
  | _ => .object []

/-- C7: the claimed mappings hold for null, booleans, floats, strings,
arrays and objects, but an integer JSON number outside the `i32` range
is *silently truncated*, not rejected: `2^31` converts to the `Int`
value `-2^31`.  This evaluates the code at the failing input, exhibiting
the divergence from the claim's "validation error, not silent". -/
theorem json_int_truncates :
    json_value_to_gql_value (JValue.num (JNumber.i 2147483648)) =
      GValue.int (-2147483648) ∧
    parse_from_json (JValue.obj [("n", JValue.num (JNumber.i 2147483648))]) =
      GValue.object [("n", GValue.int (-2147483648))] ∧
    (-2147483648 : Int) ≠ 2147483648 := by
  refine ⟨?_, ?_, by decide⟩
  · simp only [json_value_to_gql_value, wrapI32]
    norm_num
  · simp only [parse_from_json, json_value_to_gql_value, jsonObjToGql, wrapI32]
    norm_num

/-- Split a string at every dot, keeping empty pieces: Rust's
`var_path.split('.')`. -/
def splitDotAux : List Char → List Char → List String
  | [], acc => [String.mk acc.reverse]
  | c :: rest, acc =>
      if c = Char.ofNat 46 then String.mk acc.reverse :: splitDotAux rest []
      else splitDotAux rest (c :: acc)

/-- `var_path.split('.')` over the whole string. -/
def splitDot (s : String) : List String := splitDotAux s.toList []

/-- Rust `s.parse::<i32>()`: optional sign, at least one ASCII digit,
nothing else, result within the `i32` range (overflow is a parse
error). -/
def parseI32core (cs : List Char) : Option Nat :=
  if cs ≠ [] ∧ cs.all Char.isDigit then
    some (cs.foldl (fun a c => a * 10 + (c.toNat - 48)) 0)
  else none

/-- `s.parse::<i32>()` (see `parseI32core`). -/
def parseI32 (s : String) : Option Int :=
  let fin : Int → Option Int := fun v =>
    if -2147483648 ≤ v ∧ v ≤ 2147483647 then some v else none
  match s.toList with
  | [] => none
  | c :: rest =>
      if c = Char.ofNat 43 then (parseI32core rest).bind (fun n => fin n)
      else if c = Char.ofNat 45 then
        (parseI32core rest).bind (fun n => fin (-(n : Int)))
      else (parseI32core (c :: rest)).bind (fun n => fin n)

/-- Rust's `idx as usize` for an in-range `i32`: non-negative values
unchanged, negative values wrapped modulo `2^64`. -/
def i32AsUsize (idx : Int) : Nat :=
  if 0 ≤ idx then idx.toNat else (18446744073709551616 + idx).toNat

/-- `file_string` (context.rs:104-110): the upload sentinel
`"file:<filename>[:<content-type>]|<local-path>"`. -/
def file_string (filename : String) (content_type : Option String)
    (path : String) : String :=
  match content_type with
  | some ct => "file:" ++ filename ++ ":" ++ ct ++ "|" ++ path
  | none => "file:" ++ filename ++ "|" ++ path

/-- First-match in-place update of an association list entry, the model
of `BTreeMap::get_mut` followed by assignment; a missing key leaves the
list unchanged. -/
def updAssoc (fs : List (String × GValue)) (k : String) (v : GValue) :
    List (String × GValue) :=
  match fs with
  | [] => []
  | (k', w) :: rest =>
      if k' = k then (k', v) :: rest else (k', w) :: updAssoc rest k v

/-- The traversal loop of `Variables::set_upload` (context.rs:72-100).
Each segment: if it parses as an `i32` it may only index a `List`
(replace at the last segment, descend otherwise; out of bounds aborts
with everything unchanged) — when the current value is not a `List`
the segment is skipped with the cursor unmoved; a non-integer segment
symmetrically indexes an `Object` (a missing key aborts; a non-object
cursor skips the segment). -/
def uploadGo (repl : GValue) : GValue → List String → GValue
  | current, [] => current
  | current, s :: rest =>
      match parseI32 s with
      | some idx =>
          match current with
          | .list ls =>
              match ls.get? (i32AsUsize idx) with
              | some child =>
                  match rest with
                  | [] => .list (ls.set (i32AsUsize idx) repl)
                  | _ :: _ => .list (ls.set (i32AsUsize idx) (uploadGo repl child rest))
              | none => .list ls
          | other => uploadGo repl other rest
      | none =>
          match current with
          | .object fs =>
              match lookupAssoc fs s with
              | some child =>
                  match rest with
                  | [] => .object (updAssoc fs s repl)
                  | _ :: _ => .object (updAssoc fs s (uploadGo repl child rest))
              | none => .object fs
          | other => uploadGo repl other rest

/-- `Variables::set_upload` (context.rs:56-101): split the path at
dots, require the first segment to be `variables`, then traverse with
`uploadGo`, substituting the sentinel string. -/
def set_upload (vars : GValue) (var_path filename : String)
    (content_type : Option String) (path : String) : GValue :=
  match splitDot var_path with
  | [] => vars
  | first :: rest =>
      if first = "variables" then
        uploadGo (GValue.string (file_string filename content_type path)) vars rest
      else vars

/-- A claim-side path step: an index into a List or a key into an
Object. -/
inductive PathStep where
  | idx (i : Nat)
  | key (k : String)
deriving DecidableEq

/-- Claim-side read at a path. -/
def getAt : GValue → List PathStep → Option GValue
  | v, [] => some v
  | .list ls, .idx i :: rest =>
      match ls.get? i with
      | some c => getAt c rest
      | none => none
  | .object fs, .key k :: rest =>
      match lookupAssoc fs k with
      | some c => getAt c rest
      | none => none
  | _, _ :: _ => none

/-- Claim-side point update at a path; anything off the path is left
untouched, an inapplicable step leaves the value unchanged. -/
def setAt : GValue → List PathStep → GValue → GValue
  | _, [], x => x
  | .list ls, .idx i :: rest, x =>
      match ls.get? i with
      | some c => .list (ls.set i (setAt c rest x))
      | none => .list ls
  | .object fs, .key k :: rest, x =>
      match lookupAssoc fs k with
      | some c => .object (updAssoc fs k (setAt c rest x))
      | none => .object fs
  | v, _ :: _, _ => v

/-- Claim-side effective path of a segment list over a value, under the
amended traversal: integer segments index Lists, other segments index
Objects, an inapplicable segment is skipped with the cursor unmoved,
and a missing index/key (or a path that replaces nothing) is `none`. -/
def effPath : GValue → List String → Option (List PathStep)
  | _, [] => none
  | current, s :: rest =>
      match parseI32 s with
      | some idx =>
          match current with
          | .list ls =>
              match ls.get? (i32AsUsize idx) with
              | some c =>
                  match rest with
                  | [] => some [.idx (i32AsUsize idx)]
                  | _ :: _ =>
                      (effPath c rest).map (fun p => .idx (i32AsUsize idx) :: p)
              | none => none
          | other => effPath other rest
      | none =>
          match current with
          | .object fs =>
              match lookupAssoc fs s with
              | some c =>
                  match rest with
                  | [] => some [.key s]
                  | _ :: _ => (effPath c rest).map (fun p => .key s :: p)
              | none => none
          | other => effPath other rest

/-- Two paths lead to disjoint locations: they agree on a (possibly
empty) common prefix and then take different steps. -/
def Diverge : List PathStep → List PathStep → Prop
  | a :: p, b :: q => a ≠ b ∨ (a = b ∧ Diverge p q)
  | _, _ => False

theorem get?_set_self {α : Type} :
    ∀ (ls : List α) (i : Nat) (y : α), i < ls.length →
      (ls.set i y).get? i = some y := by
  intro ls
  induction ls with
  | nil => intro i y h; cases h
  | cons a rest ih =>
      intro i y h
      cases i with
      | zero => rfl
      | succ j => exact ih j y (Nat.lt_of_succ_lt_succ h)

theorem get?_set_ne {α : Type} :
    ∀ (ls : List α) (i j : Nat) (y : α), i ≠ j →
      (ls.set i y).get? j = ls.get? j := by
  intro ls
  induction ls with
  | nil => intro i j y _; simp
  | cons a rest ih =>
      intro i j y hne
      cases i with
      | zero =>
          cases j with
          | zero => exact absurd rfl hne
          | succ j2 => rfl
      | succ i2 =>
          cases j with
          | zero => rfl
          | succ j2 => exact ih i2 j2 y (fun h => hne (by rw [h]))

theorem set_get?_self {α : Type} :
    ∀ (ls : List α) (i : Nat) (c : α), ls.get? i = some c →
      ls.set i c = ls := by
  intro ls
  induction ls with
  | nil => intro i c h; cases h
  | cons a rest ih =>
      intro i c h
      cases i with
      | zero =>
          simp only [List.get?] at h
          cases h
          rfl
      | succ j =>
          simp only [List.get?] at h
          simp [List.set, ih j c h]

theorem upd_lookup_self :
    ∀ (fs : List (String × GValue)) (k : String) (c : GValue),
      lookupAssoc fs k = some c → updAssoc fs k c = fs := by
  intro fs
  induction fs with
  | nil => intro k c h; cases h
  | cons kv rest ih =>
      obtain ⟨k', w⟩ := kv
      intro k c h
      simp only [lookupAssoc] at h
      by_cases hk : k' = k
      · rw [if_pos hk] at h
        cases h
        simp [updAssoc, if_pos hk]
      · rw [if_neg hk] at h
        simp [updAssoc, if_neg hk, ih k c h]

theorem lookup_upd_eq :
    ∀ (fs : List (String × GValue)) (k : String) (c y : GValue),
      lookupAssoc fs k = some c →
        lookupAssoc (updAssoc fs k y) k = some y := by
  intro fs
  induction fs with
  | nil => intro k c y h; cases h
  | cons kv rest ih =>
      obtain ⟨k', w⟩ := kv
      intro k c y h
      simp only [lookupAssoc] at h
      by_cases hk : k' = k
      · simp [updAssoc, if_pos hk, lookupAssoc, hk]
      · rw [if_neg hk] at h
        simp [updAssoc, if_neg hk, lookupAssoc, hk, ih k c y h]

theorem lookup_upd_ne :
    ∀ (fs : List (String × GValue)) (k k2 : String) (y : GValue), k ≠ k2 →
      lookupAssoc (updAssoc fs k y) k2 = lookupAssoc fs k2 := by
  intro fs
  induction fs with
  | nil => intro k k2 y _; rfl
  | cons kv rest ih =>
      obtain ⟨k', w⟩ := kv
      intro k k2 y hne
      by_cases hk : k' = k
      · have hk2 : ¬ k' = k2 := fun h => hne (hk ▸ h ▸ rfl)
        simp [updAssoc, if_pos hk, lookupAssoc, if_neg hk2]
      · simp [updAssoc, if_neg hk, lookupAssoc, ih k k2 y hne]

theorem effPath_list_descend (s r : String) (rs : List String)
    (ls : List GValue) (idx : Int) (child : GValue)
    (hp : parseI32 s = some idx)
    (hg : ls.get? (i32AsUsize idx) = some child) :
    effPath (GValue.list ls) (s :: r :: rs) =
      (effPath child (r :: rs)).map
        (fun p => PathStep.idx (i32AsUsize idx) :: p) := by
  simp only [effPath, hp, hg]

theorem uploadGo_list_descend (repl : GValue) (s r : String) (rs : List String)
    (ls : List GValue) (idx : Int) (child : GValue)
    (hp : parseI32 s = some idx)
    (hg : ls.get? (i32AsUsize idx) = some child) :
    uploadGo repl (GValue.list ls) (s :: r :: rs) =
      GValue.list (ls.set (i32AsUsize idx) (uploadGo repl child (r :: rs))) := by
  simp only [uploadGo, hp, hg]

theorem effPath_obj_descend (s r : String) (rs : List String)
    (fs : List (String × GValue)) (child : GValue)
    (hp : parseI32 s = none) (hg : lookupAssoc fs s = some child) :
    effPath (GValue.object fs) (s :: r :: rs) =
      (effPath child (r :: rs)).map (fun p => PathStep.key s :: p) := by
  simp only [effPath, hp, hg]

theorem uploadGo_obj_descend (repl : GValue) (s r : String) (rs : List String)
    (fs : List (String × GValue)) (child : GValue)
    (hp : parseI32 s = none) (hg : lookupAssoc fs s = some child) :
    uploadGo repl (GValue.object fs) (s :: r :: rs) =
      GValue.object (updAssoc fs s (uploadGo repl child (r :: rs))) := by
  simp only [uploadGo, hp, hg]

theorem uploadGo_spec (repl : GValue) :
    ∀ (segs : List String) (current : GValue),
      (effPath current segs = none → uploadGo repl current segs = current) ∧
      (∀ p, effPath current segs = some p →
        uploadGo repl current segs = setAt current p repl) := by
  intro segs
  induction segs with
  | nil =>
      intro current
      refine ⟨fun _ => rfl, fun p hp => ?_⟩
      simp only [effPath] at hp
      exact Option.noConfusion hp
  | cons s rest ih =>
      intro current
      cases hp : parseI32 s with
      | some idx =>
          cases current with
          | list ls =>
              cases hg : ls.get? (i32AsUsize idx) with
              | none =>
                  constructor
                  · intro _
                    simp only [uploadGo, hp, hg]
                  · intro p hpe
                    simp only [effPath, hp, hg] at hpe
                    exact Option.noConfusion hpe
              | some child =>
                  cases rest with
                  | nil =>
                      constructor
                      · intro hn
                        simp only [effPath, hp, hg] at hn
                        exact Option.noConfusion hn
                      · intro p hpe
                        simp only [effPath, hp, hg] at hpe
                        have hq := Option.some.inj hpe
                        subst hq
                        simp only [uploadGo, hp, hg, setAt]
                  | cons r rs =>
                      have hef := effPath_list_descend s r rs ls idx child hp hg
                      have hup :=
                        uploadGo_list_descend repl s r rs ls idx child hp hg
                      constructor
                      · intro hn
                        rw [hef] at hn
                        cases hee : effPath child (r :: rs) with
                        | some q =>
                            rw [hee] at hn
                            simp only [Option.map_some'] at hn
                            exact Option.noConfusion hn
                        | none =>
                            rw [hup, (ih child).1 hee,
                              set_get?_self ls (i32AsUsize idx) child hg]
                      · intro p hpe
                        rw [hef] at hpe
                        cases hee : effPath child (r :: rs) with
                        | none =>
                            rw [hee] at hpe
                            simp only [Option.map_none'] at hpe
                            exact Option.noConfusion hpe
                        | some q =>
                            rw [hee] at hpe
                            simp only [Option.map_some'] at hpe
                            have hq := Option.some.inj hpe
                            subst hq
                            rw [hup, (ih child).2 q hee]
                            simp only [setAt, hg]
          | null =>
              simp only [uploadGo, effPath, hp]
              exact ih GValue.null
          | var n =>
              simp only [uploadGo, effPath, hp]
              exact ih (GValue.var n)
          | int n =>
              simp only [uploadGo, effPath, hp]
              exact ih (GValue.int n)
          | float f =>
              simp only [uploadGo, effPath, hp]
              exact ih (GValue.float f)
          | string t =>
              simp only [uploadGo, effPath, hp]
              exact ih (GValue.string t)
          | boolean b =>
              simp only [uploadGo, effPath, hp]
              exact ih (GValue.boolean b)
          | enum t =>
              simp only [uploadGo, effPath, hp]
              exact ih (GValue.enum t)
          | object fs =>
              simp only [uploadGo, effPath, hp]
              exact ih (GValue.object fs)
      | none =>
          cases current with
          | object fs =>
              cases hg : lookupAssoc fs s with
              | none =>
                  constructor
                  · intro _
                    simp only [uploadGo, hp, hg]
                  · intro p hpe
                    simp only [effPath, hp, hg] at hpe
                    exact Option.noConfusion hpe
              | some child =>
                  cases rest with
                  | nil =>
                      constructor
                      · intro hn
                        simp only [effPath, hp, hg] at hn
                        exact Option.noConfusion hn
                      · intro p hpe
                        simp only [effPath, hp, hg] at hpe
                        have hq := Option.some.inj hpe
                        subst hq
                        simp only [uploadGo, hp, hg, setAt]
                  | cons r rs =>
                      have hef := effPath_obj_descend s r rs fs child hp hg
                      have hup := uploadGo_obj_descend repl s r rs fs child hp hg
                      constructor
                      · intro hn
                        rw [hef] at hn
                        cases hee : effPath child (r :: rs) with
                        | some q =>
                            rw [hee] at hn
                            simp only [Option.map_some'] at hn
                            exact Option.noConfusion hn
                        | none =>
                            rw [hup, (ih child).1 hee,
                              upd_lookup_self fs s child hg]
                      · intro p hpe
                        rw [hef] at hpe
                        cases hee : effPath child (r :: rs) with
                        | none =>
                            rw [hee] at hpe
                            simp only [Option.map_none'] at hpe
                            exact Option.noConfusion hpe
                        | some q =>
                            rw [hee] at hpe
                            simp only [Option.map_some'] at hpe
                            have hq := Option.some.inj hpe
                            subst hq
                            rw [hup, (ih child).2 q hee]
                            simp only [setAt, hg]
          | null =>
              simp only [uploadGo, effPath, hp]
              exact ih GValue.null
          | var n =>
              simp only [uploadGo, effPath, hp]
              exact ih (GValue.var n)
          | int n =>
              simp only [uploadGo, effPath, hp]
              exact ih (GValue.int n)
          | float f =>
              simp only [uploadGo, effPath, hp]
              exact ih (GValue.float f)
          | string t =>
              simp only [uploadGo, effPath, hp]
              exact ih (GValue.string t)
          | boolean b =>
              simp only [uploadGo, effPath, hp]
              exact ih (GValue.boolean b)
          | enum t =>
              simp only [uploadGo, effPath, hp]
              exact ih (GValue.enum t)
          | list ls =>
              simp only [uploadGo, effPath, hp]
              exact ih (GValue.list ls)

theorem effPath_int_skip (s : String) (idx : Int) (hp : parseI32 s = some idx)
    (current : GValue) (hc : ∀ ls, current ≠ GValue.list ls)
    (rest : List String) : effPath current (s :: rest) = effPath current rest := by
  cases current with
  | list ls => exact absurd rfl (hc ls)
  | null => simp only [effPath, hp]
  | var n => simp only [effPath, hp]
  | int n => simp only [effPath, hp]
  | float f => simp only [effPath, hp]
  | string t => simp only [effPath, hp]
  | boolean b => simp only [effPath, hp]
  | enum t => simp only [effPath, hp]
  | object fs => simp only [effPath, hp]

theorem effPath_str_skip (s : String) (hp : parseI32 s = none)
    (current : GValue) (hc : ∀ fs, current ≠ GValue.object fs)
    (rest : List String) : effPath current (s :: rest) = effPath current rest := by
  cases current with
  | object fs => exact absurd rfl (hc fs)
  | null => simp only [effPath, hp]
  | var n => simp only [effPath, hp]
  | int n => simp only [effPath, hp]
  | float f => simp only [effPath, hp]
  | string t => simp only [effPath, hp]
  | boolean b => simp only [effPath, hp]
  | enum t => simp only [effPath, hp]
  | list ls => simp only [effPath, hp]

theorem effPath_valid :
    ∀ (segs : List String) (v : GValue) (p : List PathStep),
      effPath v segs = some p → ∃ c, getAt v p = some c := by
  intro segs
  induction segs with
  | nil =>
      intro v p hpe
      simp only [effPath] at hpe
      exact Option.noConfusion hpe
  | cons s rest ih =>
      intro v p hpe
      cases hp : parseI32 s with
      | some idx =>
          by_cases hcl : ∃ ls, v = GValue.list ls
          · obtain ⟨ls, rfl⟩ := hcl
            cases hg : ls.get? (i32AsUsize idx) with
            | none =>
                simp only [effPath, hp, hg] at hpe
                exact Option.noConfusion hpe
            | some child =>
                cases rest with
                | nil =>
                    simp only [effPath, hp, hg] at hpe
                    have hq := Option.some.inj hpe
                    subst hq
                    exact ⟨child, by simp only [getAt, hg]⟩
                | cons r rs =>
                    rw [effPath_list_descend s r rs ls idx child hp hg] at hpe
                    cases hee : effPath child (r :: rs) with
                    | none =>
                        rw [hee] at hpe
                        simp only [Option.map_none'] at hpe
                        exact Option.noConfusion hpe
                    | some q =>
                        rw [hee] at hpe
                        simp only [Option.map_some'] at hpe
                        have hq := Option.some.inj hpe
                        subst hq
                        obtain ⟨c, hc⟩ := ih child q hee
                        exact ⟨c, by simp only [getAt, hg]; exact hc⟩
          · rw [effPath_int_skip s idx hp v (fun ls h => hcl ⟨ls, h⟩) rest] at hpe
            exact ih v p hpe
      | none =>
          by_cases hco : ∃ fs, v = GValue.object fs
          · obtain ⟨fs, rfl⟩ := hco
            cases hg : lookupAssoc fs s with
            | none =>
                simp only [effPath, hp, hg] at hpe
                exact Option.noConfusion hpe
            | some child =>
                cases rest with
                | nil =>
                    simp only [effPath, hp, hg] at hpe
                    have hq := Option.some.inj hpe
                    subst hq
                    exact ⟨child, by simp only [getAt, hg]⟩
                | cons r rs =>
                    rw [effPath_obj_descend s r rs fs child hp hg] at hpe
                    cases hee : effPath child (r :: rs) with
                    | none =>
                        rw [hee] at hpe
                        simp only [Option.map_none'] at hpe
                        exact Option.noConfusion hpe
                    | some q =>
                        rw [hee] at hpe
                        simp only [Option.map_some'] at hpe
                        have hq := Option.some.inj hpe
                        subst hq
                        obtain ⟨c, hc⟩ := ih child q hee
                        exact ⟨c, by simp only [getAt, hg]; exact hc⟩
          · rw [effPath_str_skip s hp v (fun fs h => hco ⟨fs, h⟩) rest] at hpe
            exact ih v p hpe

theorem getAt_setAt_point :
    ∀ (p : List PathStep) (v c x : GValue), getAt v p = some c →
      getAt (setAt v p x) p = some x := by
  intro p
  induction p with
  | nil =>
      intro v c x _
      simp only [setAt, getAt]
  | cons a p' ih =>
      intro v c x hg
      cases a with
      | idx i =>
          cases v with
          | list ls =>
              cases hgi : ls.get? i with
              | none => simp only [getAt, hgi] at hg; exact Option.noConfusion hg
              | some ch =>
                  have hlen : i < ls.length := by
                    by_contra hge
                    rw [List.get?_eq_none.mpr (Nat.le_of_not_lt hge)] at hgi
                    exact Option.noConfusion hgi
                  simp only [getAt, hgi] at hg
                  simp only [setAt, hgi, getAt,
                    get?_set_self ls i (setAt ch p' x) hlen]
                  exact ih ch c x hg
          | null => simp only [getAt] at hg; exact Option.noConfusion hg
          | var n => simp only [getAt] at hg; exact Option.noConfusion hg
          | int n => simp only [getAt] at hg; exact Option.noConfusion hg
          | float f => simp only [getAt] at hg; exact Option.noConfusion hg
          | string t => simp only [getAt] at hg; exact Option.noConfusion hg
          | boolean b => simp only [getAt] at hg; exact Option.noConfusion hg
          | enum t => simp only [getAt] at hg; exact Option.noConfusion hg
          | object fs => simp only [getAt] at hg; exact Option.noConfusion hg
      | key k =>
          cases v with
          | object fs =>
              cases hgk : lookupAssoc fs k with
              | none => simp only [getAt, hgk] at hg; exact Option.noConfusion hg
              | some ch =>
                  simp only [getAt, hgk] at hg
                  simp only [setAt, hgk, getAt,
                    lookup_upd_eq fs k ch (setAt ch p' x) hgk]
                  exact ih ch c x hg
          | null => simp only [getAt] at hg; exact Option.noConfusion hg
          | var n => simp only [getAt] at hg; exact Option.noConfusion hg
          | int n => simp only [getAt] at hg; exact Option.noConfusion hg
          | float f => simp only [getAt] at hg; exact Option.noConfusion hg
          | string t => simp only [getAt] at hg; exact Option.noConfusion hg
          | boolean b => simp only [getAt] at hg; exact Option.noConfusion hg
          | enum t => simp only [getAt] at hg; exact Option.noConfusion hg
          | list ls => simp only [getAt] at hg; exact Option.noConfusion hg

theorem setAt_frame :
    ∀ (p q : List PathStep) (v x : GValue), Diverge p q →
      getAt (setAt v p x) q = getAt v q := by
  intro p
  induction p with
  | nil => intro q v x hd; simp only [Diverge] at hd
  | cons a p' ih =>
      intro q v x hd
      cases q with
      | nil => simp only [Diverge] at hd
      | cons b q' =>
          simp only [Diverge] at hd
          cases v with
          | list ls =>
              cases a with
              | key k => rfl
              | idx i =>
                  cases hgi : ls.get? i with
                  | none => simp only [setAt, hgi]
                  | some ch =>
                      have hlen : i < ls.length := by
                        by_contra hge
                        rw [List.get?_eq_none.mpr (Nat.le_of_not_lt hge)] at hgi
                        exact Option.noConfusion hgi
                      simp only [setAt, hgi]
                      cases b with
                      | key k2 => rfl
                      | idx j =>
                          by_cases hij : i = j
                          · subst hij
                            have hdd : Diverge p' q' := by
                              rcases hd with hne | ⟨_, hdd⟩
                              · exact absurd rfl hne
                              · exact hdd
                            simp only [getAt,
                              get?_set_self ls i (setAt ch p' x) hlen, hgi]
                            exact ih q' ch x hdd
                          · simp only [getAt, get?_set_ne ls i j (setAt ch p' x) hij]
          | object fs =>
              cases a with
              | idx i => rfl
              | key k =>
                  cases hgk : lookupAssoc fs k with
                  | none => simp only [setAt, hgk]
                  | some ch =>
                      simp only [setAt, hgk]
                      cases b with
                      | idx j => rfl
                      | key k2 =>
                          by_cases hkk : k = k2
                          · subst hkk
                            have hdd : Diverge p' q' := by
                              rcases hd with hne | ⟨_, hdd⟩
                              · exact absurd rfl hne
                              · exact hdd
                            simp only [getAt,
                              lookup_upd_eq fs k ch (setAt ch p' x) hgk, hgk]
                            exact ih q' ch x hdd
                          · simp only [getAt,
                              lookup_upd_ne fs k k2 (setAt ch p' x) hkk]
          | null => rfl
          | var n => rfl
          | int n => rfl
          | float f => rfl
          | string t => rfl
          | boolean b2 => rfl
          | enum t => rfl

/-- C5 (counterexample): the claim says an untraversable path leaves
the variables object unchanged, but a segment that does not match the
current value's kind is *skipped*, not treated as untraversable: the
path `variables.0.a.b` — whose integer segment `0` meets an Object,
not a List — still replaces `variables.a.b`. -/
theorem set_upload_counterexample :
    set_upload (GValue.object [("a", GValue.object [("b", GValue.int 1)])])
        "variables.0.a.b" "f" none "tmp" =
      GValue.object [("a", GValue.object [("b", GValue.string "file:f|tmp")])] ∧
    GValue.object [("a", GValue.object [("b", GValue.string "file:f|tmp")])] ≠
      GValue.object [("a", GValue.object [("b", GValue.int 1)])] := by
  exact ⟨rfl, by simp⟩

/-- C5 (amended): `set_upload` either replaces exactly the value
reached by traversing the path — where integer segments index Lists,
other segments index Objects, and a segment that does not match the
current value's kind is skipped with the cursor unmoved — with the
sentinel string, leaving every entry at a location diverging from the
replaced path unchanged; or, when the first segment is not `variables`
or an applicable segment's index/key is absent (or nothing remains to
replace), it returns with the variables object completely unchanged and
without error. -/
theorem set_upload_characterization (vars : GValue) (var_path filename : String)
    (ct : Option String) (path : String) :
    (∀ first rest, splitDot var_path = first :: rest → first ≠ "variables" →
        set_upload vars var_path filename ct path = vars) ∧
    (∀ rest, splitDot var_path = "variables" :: rest →
        ((effPath vars rest = none →
            set_upload vars var_path filename ct path = vars) ∧
         (∀ p, effPath vars rest = some p →
            set_upload vars var_path filename ct path =
              setAt vars p (GValue.string (file_string filename ct path)) ∧
            getAt (setAt vars p (GValue.string (file_string filename ct path))) p
              = some (GValue.string (file_string filename ct path))))) ∧
    (∀ (v x : GValue) (p q : List PathStep), Diverge p q →
        getAt (setAt v p x) q = getAt v q) := by
  refine ⟨?_, ?_, ?_⟩
  · intro first rest hsplit hne
    simp only [set_upload, hsplit, if_neg hne]
  · intro rest hsplit
    constructor
    · intro hn
      simp only [set_upload, hsplit, if_pos rfl]
      exact (uploadGo_spec _ rest vars).1 hn
    · intro p hpe
      constructor
      · simp only [set_upload, hsplit, if_pos rfl]
        exact (uploadGo_spec _ rest vars).2 p hpe
      · obtain ⟨c, hc⟩ := effPath_valid rest vars p hpe
        exact getAt_setAt_point p vars c _ hc
  · intro v x p q hd
    exact setAt_frame p q v x hd

/-- Witness for `set_upload_characterization`: the effective path of
`variables.a` over `{a: 1}` is `[key a]` and `set_upload` performs the
point update there. -/
theorem set_upload_characterization_witness :
    set_upload (GValue.object [("a", GValue.int 1)]) "variables.a" "f" none "p"
      = setAt (GValue.object [("a", GValue.int 1)]) [PathStep.key "a"]
          (GValue.string (file_string "f" none "p")) :=
  (((set_upload_characterization (GValue.object [("a", GValue.int 1)])
        "variables.a" "f" none "p").2.1 ["a"] rfl).2 [PathStep.key "a"] rfl).1

/-- `ResolveId` (context.rs:224-231): parent id and current id. -/
structure ResolveId where
  parent : Option Nat
  current : Nat
deriving DecidableEq

/-- `ResolveId::root` (context.rs:234-240). -/
def ResolveId.root : ResolveId := ⟨none, 0⟩

/-- The slice of `ContextBase` that resolve-id derivation reads (the
other fields are threaded through unchanged and elided here). -/
structure CtxM where
  resolve_id : ResolveId
deriving DecidableEq

/-- `ContextBase::get_child_resolve_id` (context.rs:311-320): the
shared counter is incremented (`fetch_add(1)` returns the old value)
and the child id is the old value plus one, with the deriving context's
`current` as parent.  Returns the child id and the new counter value. -/
def get_child_resolve_id (c : CtxM) (counter : Nat) : ResolveId × Nat :=
  (⟨some c.resolve_id.current, counter + 1⟩, counter + 1)

/-- `ContextBase::with_field` (context.rs:323-345), restricted to its
resolve-id effect: the child context carries a freshly allocated id. -/
def with_field (c : CtxM) (counter : Nat) : CtxM × Nat :=
  ((⟨(get_child_resolve_id c counter).1⟩ : CtxM),
    (get_child_resolve_id c counter).2)

/-- `ContextBase::with_index` (context.rs:481-498), restricted to its
resolve-id effect: same fresh allocation as `with_field`. -/
def with_index (c : CtxM) (counter : Nat) : CtxM × Nat :=
  ((⟨(get_child_resolve_id c counter).1⟩ : CtxM),
    (get_child_resolve_id c counter).2)

/-- `ContextBase::with_selection_set` (context.rs:348-365): the derived
context keeps `resolve_id` (and the counter is untouched). -/
def with_selection_set (c : CtxM) : CtxM := ⟨c.resolve_id⟩

/-- The states reachable within one execution: the list of resolve ids
allocated so far (root first, in allocation order) together with the
counter value.  A step derives a child context from any context
allocated so far via `with_field` or `with_index`;
`with_selection_set` allocates nothing. -/
inductive Reaches : List ResolveId → Nat → Prop where
  | root : Reaches [ResolveId.root] 0
  | field (ids : List ResolveId) (c : Nat) (r : ResolveId) :
      Reaches ids c → r ∈ ids →
      Reaches (ids ++ [(with_field ⟨r⟩ c).1.resolve_id]) (with_field ⟨r⟩ c).2
  | index (ids : List ResolveId) (c : Nat) (r : ResolveId) :
      Reaches ids c → r ∈ ids →
      Reaches (ids ++ [(with_index ⟨r⟩ c).1.resolve_id]) (with_index ⟨r⟩ c).2
  | selset (ids : List ResolveId) (c : Nat) (r : ResolveId) :
      Reaches ids c → r ∈ ids → Reaches ids c

/-- The claim's invariant over one execution's allocated ids. -/
def RIdInv (ids : List ResolveId) (c : Nat) : Prop :=
  (ids.map ResolveId.current).Nodup ∧
  (∀ r ∈ ids, r.current ≤ c) ∧
  (∀ r ∈ ids, r.parent = none → r = ResolveId.root) ∧
  (∀ i (h : i < ids.length) (pp : Nat),
    (ids.get ⟨i, h⟩).parent = some pp →
      ∃ j, ∃ (hj : j < i), (ids.get ⟨j, Nat.lt_trans hj h⟩).current = pp)

theorem get_append_left {α : Type} :
    ∀ (xs ys : List α) (i : Nat) (h : i < xs.length)
      (h2 : i < (xs ++ ys).length),
      (xs ++ ys).get ⟨i, h2⟩ = xs.get ⟨i, h⟩ := by
  intro xs
  induction xs with
  | nil => intro ys i h _; cases h
  | cons a rest ih =>
      intro ys i h h2
      cases i with
      | zero => rfl
      | succ j => exact ih ys j (Nat.lt_of_succ_lt_succ h) _

theorem get_append_last {α : Type} :
    ∀ (xs : List α) (a : α) (h : xs.length < (xs ++ [a]).length),
      (xs ++ [a]).get ⟨xs.length, h⟩ = a := by
  intro xs
  induction xs with
  | nil => intro a h; rfl
  | cons b rest ih => intro a h; exact ih a _

theorem rid_inv_append (ids : List ResolveId) (c : Nat) (r : ResolveId)
    (hr : r ∈ ids) (hinv : RIdInv ids c) :
    RIdInv (ids ++ [⟨some r.current, c + 1⟩]) (c + 1) := by
  obtain ⟨hnodup, hle, hroot, hparent⟩ := hinv
  refine ⟨?_, ?_, ?_, ?_⟩
  · rw [List.map_append]
    rw [List.nodup_append]
    refine ⟨hnodup, List.nodup_singleton _, ?_⟩
    intro x hx hx2
    simp only [List.map_cons, List.map_nil, List.mem_singleton] at hx2
    subst hx2
    obtain ⟨rr, hrr, hrrc⟩ := List.mem_map.mp hx
    have := hle rr hrr
    omega
  · intro q hq
    rcases List.mem_append.mp hq with hq1 | hq2
    · exact Nat.le_trans (hle q hq1) (Nat.le_succ c)
    · simp only [List.mem_singleton] at hq2
      subst hq2
      exact Nat.le_refl _
  · intro q hq hqp
    rcases List.mem_append.mp hq with hq1 | hq2
    · exact hroot q hq1 hqp
    · simp only [List.mem_singleton] at hq2
      subst hq2
      exact Option.noConfusion hqp
  · intro i h pp hp
    by_cases hi : i < ids.length
    · rw [get_append_left ids _ i hi h] at hp
      obtain ⟨j, hj, hjc⟩ := hparent i hi pp hp
      exact ⟨j, hj, by
        rw [get_append_left ids _ j (Nat.lt_trans hj hi)]
        exact hjc⟩
    · have hieq : i = ids.length := by
        have := h
        simp only [List.length_append, List.length_cons, List.length_nil] at this
        omega
      subst hieq
      rw [get_append_last ids _ h] at hp
      have hpc : pp = r.current := by
        have := Option.some.inj hp
        exact this.symm
      subst hpc
      obtain ⟨⟨j, hjl⟩, hjg⟩ := List.mem_iff_get.mp hr
      refine ⟨j, hjl, ?_⟩
      rw [get_append_left ids _ j hjl _]
      rw [hjg]

/-- C8: within one execution the root context's id is `{None, 0}`;
`with_field` and `with_index` derive an id whose parent is the deriving
context's `current` and whose `current` is freshly drawn from the
counter; `with_selection_set` leaves the context's id unchanged; and in
every reachable state the allocated `current` values are pairwise
distinct, bounded by the counter, only the root has no parent, and
every non-root id's parent equals a previously allocated `current`. -/
theorem resolve_id_invariants :
    ResolveId.root = ⟨none, 0⟩ ∧
    (∀ (c : CtxM) (k : Nat),
      (with_field c k).1.resolve_id = ⟨some c.resolve_id.current, k + 1⟩ ∧
      (with_field c k).2 = k + 1 ∧
      (with_index c k).1.resolve_id = ⟨some c.resolve_id.current, k + 1⟩ ∧
      (with_index c k).2 = k + 1 ∧
      with_selection_set c = c) ∧
    (∀ ids c, Reaches ids c → RIdInv ids c) := by
  refine ⟨rfl, fun c k => ⟨rfl, rfl, rfl, rfl, rfl⟩, ?_⟩
  intro ids c h
  induction h with
  | root =>
      refine ⟨List.nodup_singleton _, ?_, ?_, ?_⟩
      · intro r hr
        simp only [List.mem_singleton] at hr
        subst hr
        exact Nat.le_refl _
      · intro r hr _
        simp only [List.mem_singleton] at hr
        exact hr
      · intro i hlen pp hp
        simp only [List.length_cons, List.length_nil] at hlen
        have hi0 : i = 0 := by omega
        subst hi0
        simp only [List.get, ResolveId.root] at hp
        exact Option.noConfusion hp
  | field ids c r _ hr ih => exact rid_inv_append ids c r hr ih
  | index ids c r _ hr ih => exact rid_inv_append ids c r hr ih
  | selset ids c r _ _ ih => exact ih

/-- Witness for `resolve_id_invariants`: the state after deriving a
field child of the root and then an index child of that child satisfies
the invariant. -/
theorem resolve_id_invariants_witness :
    RIdInv [ResolveId.root, ⟨some 0, 1⟩, ⟨some 1, 2⟩] 2 := by
  have h1 : Reaches [ResolveId.root] 0 := Reaches.root
  have h2 : Reaches [ResolveId.root, ⟨some 0, 1⟩] 1 := by
    have := Reaches.field [ResolveId.root] 0 ResolveId.root h1 (by simp)
    simpa [with_field, get_child_resolve_id, ResolveId.root] using this
  have h3 : Reaches [ResolveId.root, ⟨some 0, 1⟩, ⟨some 1, 2⟩] 2 := by
    have := Reaches.index [ResolveId.root, ⟨some 0, 1⟩] 1 ⟨some 0, 1⟩ h2 (by simp)
    simpa [with_index, get_child_resolve_id] using this
  exact (resolve_id_invariants).2.2 _ _ h3

/-- `QueryPathSegment` (context.rs:148-155). -/
inductive QueryPathSegment where
  | index (i : Nat)
  | name (s : String)
deriving DecidableEq

/-- `QueryPathNode` (context.rs:157-165): a leaf-to-root chain of
segments with an optional parent. -/
inductive QueryPathNode where
  | node (parent : Option QueryPathNode) (segment : QueryPathSegment)

/-- `QueryPathNode::field_name` (context.rs:189-197): walk towards the
root until a `Name` segment is found.  The source unwraps the parent
without checking; the missing-parent panic on an all-`Index` chain is
modelled as `none`. -/
def field_name : QueryPathNode → Option String
  | .node parent segment =>
      match segment with
      | .name s => some s
      | .index _ =>
          match parent with
          | some p => field_name p
          | none => none

/-- The chain of segments from the leaf to the root. -/
def pathSegments : QueryPathNode → List QueryPathSegment
  | .node parent segment =>
      segment ::
        (match parent with
         | some p => pathSegments p
         | none => [])

/-- The name carried by a `Name` segment. -/
def segName : QueryPathSegment → Option String
  | .name s => some s
  | .index _ => none

/-- C10: `field_name` returns the name of the leaf-most `Name` segment
on the path (the first one when walking from the node towards the
root), and on a path whose segments are all `Index` it hits the
`unwrap` of a missing parent — modelled as `none` — a precondition the
public interface does not record. -/
theorem field_name_eq_findSome :
    ∀ n : QueryPathNode, field_name n = (pathSegments n).findSome? segName
  | .node none segment => by
      cases segment <;>
        simp [field_name, pathSegments, List.findSome?_cons, segName]
  | .node (some p) segment => by
      cases segment with
      | name s =>
          simp [field_name, pathSegments, List.findSome?_cons, segName]
      | index i =>
          simp [field_name, pathSegments, List.findSome?_cons, segName,
            field_name_eq_findSome p]

theorem field_name_spec :
    (∀ n : QueryPathNode, field_name n = (pathSegments n).findSome? segName) ∧
    (∀ n : QueryPathNode,
      (∀ s ∈ pathSegments n, segName s = none) → field_name n = none) ∧
    (∀ n : QueryPathNode, ∀ s,
      (pathSegments n).findSome? segName = some s →
        field_name n = some s) := by
  have hmain := field_name_eq_findSome
  refine ⟨hmain, ?_, ?_⟩
  · intro n hall
    rw [hmain n]
    have hgen : ∀ l : List QueryPathSegment,
        (∀ s ∈ l, segName s = none) → l.findSome? segName = none := by
      intro l
      induction l with
      | nil => intro _; rfl
      | cons s rest ih =>
          intro h
          have hs := h s (by simp)
          simp only [List.findSome?_cons, hs]
          exact ih (fun x hx => h x (by simp [hx]))
    exact hgen _ hall
  · intro n s hs
    rw [hmain n, hs]

/-- Witness for `field_name_spec`: on the all-`Index` path `[1, 0]` the
walk runs out of parents (the modelled panic). -/
theorem field_name_spec_witness :
    field_name (QueryPathNode.node
      (some (QueryPathNode.node none (QueryPathSegment.index 0)))
      (QueryPathSegment.index 1)) = none :=
  field_name_spec.2.1
    (QueryPathNode.node
      (some (QueryPathNode.node none (QueryPathSegment.index 0)))
      (QueryPathSegment.index 1))
    (by
      intro s hs
      simp only [pathSegments, List.mem_cons, List.mem_singleton] at hs
      rcases hs with rfl | hs
      · rfl
      · rcases hs with rfl | hs
        · rfl
        · simp at hs)

/-- `Span` (parser/span.rs): start and end positions (`end` is a Lean
keyword, the field is named `stop`). -/
structure Span where
  start : Pos
  stop : Pos
deriving DecidableEq

/-- `Spanned<T>` (parser/span.rs:33-37).  Its `PartialEq`, `Ord` and
`BTreeMap`-key behaviour delegate to `node`, ignoring `span`. -/
structure Spanned (α : Type) where
  span : Span
  node : α
deriving DecidableEq

/-- The span-carrying `Value` of `parser/value.rs`: lists hold spanned
elements and objects are `BTreeMap<Spanned<String>, Spanned<Value>>`
(modelled as an association list of spanned keys to spanned values).
The constructor for `Variable` is named `var` (`variable` is a Lean
keyword) and `String` payloads are `str`. -/
inductive SValue where
  | null
  | var (name : String)
  | int (n : Int)
  | float (f : F64)
  | str (s : String)
  | boolean (b : Bool)
  | enum (name : String)
  | list (xs : List (Spanned SValue))
  | object (fields : List (Spanned String × Spanned SValue))

/-- `BTreeMap::get(key)` over the object entries: keys compare by node
(the `Ord` of `Spanned` delegates to the node). -/
def findByKey (k : String) :
    List (Spanned String × Spanned SValue) → Option (Spanned SValue)
  | [] => none
  | (k2, v) :: rest => if k2.node = k then some v else findByKey k rest

mutual

/-- The hand-written `PartialEq for Value` (parser/value.rs:17-58):
same-variant payload comparison; lists compare element-wise in order
through the span-ignoring `Spanned` equality; objects first compare
lengths, then require every entry of the left map to be found by key in
the right map with an equal value. -/
def veq : SValue → SValue → Bool
  | .var a, .var b => a == b
  | .int a, .int b => a == b
  | .float a, .float b => a == b
  | .str a, .str b => a == b
  | .boolean a, .boolean b => a == b
  | .null, .null => true
  | .enum a, .enum b => a == b
  | .list a, .list b => veqList a b
  | .object a, .object b => a.length == b.length && veqObjAll a b
  | _, _ => false
termination_by a _ => sizeOf a

/-- The index loop of the `List` arm (delegating to `Spanned::eq`,
which compares nodes). -/
def veqList : List (Spanned SValue) → List (Spanned SValue) → Bool
  | [], [] => true
  | ⟨_, an⟩ :: ar, ⟨_, bn⟩ :: br => veq an bn && veqList ar br
  | _, _ => false
termination_by a _ => sizeOf a

/-- The entry loop of the `Object` arm: each left entry must be found
by key on the right with an equal value. -/
def veqObjAll : List (Spanned String × Spanned SValue) →
    List (Spanned String × Spanned SValue) → Bool
  | [], _ => true
  | (k, ⟨_, an⟩) :: ar, b =>
      (match findByKey k.node b with
       | some bv => veq an bv.node
       | none => false) && veqObjAll ar b
termination_by a _ => sizeOf a

end

/-- A later duplicate of an object key, used to state the `BTreeMap`
key-uniqueness invariant on the association-list model. -/
def nodupKeysB : List (Spanned String × Spanned SValue) → Bool
  | [] => true
  | kv :: rest => (findByKey kv.1.node rest).isNone && nodupKeysB rest

mutual

/-- The `BTreeMap` well-formedness invariant of a parsed value: every
object's keys are pairwise distinct, recursively. -/
def swf : SValue → Bool
  | .list xs => swfList xs
  | .object fs => nodupKeysB fs && swfObj fs
  | _ => true
termination_by a => sizeOf a

/-- `swf` over list elements. -/
def swfList : List (Spanned SValue) → Bool
  | [] => true
  | ⟨_, xn⟩ :: r => swf xn && swfList r
termination_by a => sizeOf a

/-- `swf` over object entry values. -/
def swfObj : List (Spanned String × Spanned SValue) → Bool
  | [] => true
  | (_, ⟨_, vn⟩) :: r => swf vn && swfObj r
termination_by a => sizeOf a

end

/-- The claim-side equivalence: same variant with equal payloads, lists
element-wise in order ignoring element spans, objects by key set with
equal associated values — independent of key insertion order and of all
spans (no constructor of this relation inspects a span). -/
inductive SEquiv : SValue → SValue → Prop where
  | null : SEquiv .null .null
  | var (s : String) : SEquiv (.var s) (.var s)
  | int (n : Int) : SEquiv (.int n) (.int n)
  | float (f : F64) : SEquiv (.float f) (.float f)
  | str (s : String) : SEquiv (.str s) (.str s)
  | boolean (b : Bool) : SEquiv (.boolean b) (.boolean b)
  | enum (s : String) : SEquiv (.enum s) (.enum s)
  | list (xs ys : List (Spanned SValue)) :
      xs.length = ys.length →
      (∀ i (h : i < xs.length) (h2 : i < ys.length),
        SEquiv (xs.get ⟨i, h⟩).node (ys.get ⟨i, h2⟩).node) →
      SEquiv (.list xs) (.list ys)
  | object (a b : List (Spanned String × Spanned SValue)) :
      (∀ k, (findByKey k a).isSome = (findByKey k b).isSome) →
      (∀ k v w, findByKey k a = some v → findByKey k b = some w →
        SEquiv v.node w.node) →
      SEquiv (.object a) (.object b)

/-- The key nodes of an object's entries, in entry order. -/
def objKeys (fs : List (Spanned String × Spanned SValue)) : List String :=
  fs.map (fun kv => kv.1.node)

theorem findByKey_isSome_iff_mem :
    ∀ (fs : List (Spanned String × Spanned SValue)) (k : String),
      (findByKey k fs).isNone = false ↔ k ∈ objKeys fs := by
  intro fs
  induction fs with
  | nil => intro k; simp [findByKey, objKeys]
  | cons kv rest ih =>
      intro k
      obtain ⟨ks, v⟩ := kv
      by_cases hk : ks.node = k
      · simp [findByKey, hk, objKeys]
      · simp only [findByKey, if_neg hk, objKeys, List.map_cons, List.mem_cons]
        rw [ih k]
        simp only [objKeys]
        constructor
        · intro h; exact Or.inr h
        · intro h
          rcases h with h | h
          · exact absurd h.symm hk
          · exact h

theorem findByKey_some_mem :
    ∀ (fs : List (Spanned String × Spanned SValue)) (k : String)
      (v : Spanned SValue), findByKey k fs = some v →
      ∃ ks, (ks, v) ∈ fs ∧ ks.node = k := by
  intro fs
  induction fs with
  | nil => intro k v h; cases h
  | cons kv rest ih =>
      intro k v h
      obtain ⟨ks, w⟩ := kv
      by_cases hk : ks.node = k
      · rw [findByKey, if_pos hk] at h
        cases h
        exact ⟨ks, by simp, hk⟩
      · rw [findByKey, if_neg hk] at h
        obtain ⟨ks2, hm, hkn⟩ := ih k v h
        exact ⟨ks2, by simp [hm], hkn⟩

theorem nodup_mem_findByKey :
    ∀ (fs : List (Spanned String × Spanned SValue)), nodupKeysB fs = true →
      ∀ (ks : Spanned String) (v : Spanned SValue), (ks, v) ∈ fs →
        findByKey ks.node fs = some v := by
  intro fs
  induction fs with
  | nil => intro _ ks v h; cases h
  | cons kv rest ih =>
      intro hnd ks v h
      obtain ⟨k2, w⟩ := kv
      simp only [nodupKeysB, Bool.and_eq_true] at hnd
      obtain ⟨hnone, hrest⟩ := hnd
      rcases List.mem_cons.mp h with heq | hm
      · cases heq
        rw [findByKey, if_pos rfl]
      · by_cases hk : k2.node = ks.node
        · exfalso
          have hmem : ks.node ∈ objKeys rest := by
            simp only [objKeys, List.mem_map]
            exact ⟨(ks, v), hm, rfl⟩
          rw [← findByKey_isSome_iff_mem rest ks.node] at hmem
          rw [hk] at hnone
          rw [hnone] at hmem
          exact Bool.noConfusion hmem
        · rw [findByKey, if_neg hk]
          exact ih hrest ks v hm

theorem nodupKeysB_iff_nodup :
    ∀ (fs : List (Spanned String × Spanned SValue)),
      nodupKeysB fs = true ↔ (objKeys fs).Nodup := by
  intro fs
  induction fs with
  | nil => simp [nodupKeysB, objKeys]
  | cons kv rest ih =>
      obtain ⟨ks, v⟩ := kv
      simp only [nodupKeysB, Bool.and_eq_true, objKeys, List.map_cons,
        List.nodup_cons]
      rw [ih]
      constructor
      · rintro ⟨hnone, hnd⟩
        refine ⟨?_, hnd⟩
        intro hmem
        have hmem2 : ks.node ∈ objKeys rest := hmem
        rw [← findByKey_isSome_iff_mem rest ks.node] at hmem2
        rw [hnone] at hmem2
        exact Bool.noConfusion hmem2
      · rintro ⟨hnmem, hnd⟩
        refine ⟨?_, hnd⟩
        cases hfk : (findByKey ks.node rest).isNone with
        | true => rfl
        | false =>
            rw [findByKey_isSome_iff_mem rest ks.node] at hfk
            exact absurd hfk hnmem

theorem objKeys_length (fs : List (Spanned String × Spanned SValue)) :
    (objKeys fs).length = fs.length := by
  simp [objKeys]

theorem key_iff_of_subset_len (a b : List (Spanned String × Spanned SValue))
    (ha : (objKeys a).Nodup) (hb : (objKeys b).Nodup)
    (hsub : ∀ k, k ∈ objKeys a → k ∈ objKeys b) (hlen : a.length = b.length) :
    ∀ k, k ∈ objKeys a ↔ k ∈ objKeys b := by
  have hsub2 : (objKeys a).toFinset ⊆ (objKeys b).toFinset := by
    intro k hk
    rw [List.mem_toFinset] at hk
    rw [List.mem_toFinset]
    exact hsub k hk
  have hca : (objKeys a).toFinset.card = a.length := by
    rw [List.toFinset_card_of_nodup ha, objKeys_length]
  have hcb : (objKeys b).toFinset.card = b.length := by
    rw [List.toFinset_card_of_nodup hb, objKeys_length]
  have heq : (objKeys a).toFinset = (objKeys b).toFinset :=
    Finset.eq_of_subset_of_card_le hsub2 (by rw [hca, hcb, hlen])
  intro k
  rw [← List.mem_toFinset, ← List.mem_toFinset, heq]

theorem length_eq_of_key_iff (a b : List (Spanned String × Spanned SValue))
    (ha : (objKeys a).Nodup) (hb : (objKeys b).Nodup)
    (hiff : ∀ k, k ∈ objKeys a ↔ k ∈ objKeys b) : a.length = b.length := by
  have heq : (objKeys a).toFinset = (objKeys b).toFinset := by
    apply Finset.ext
    intro k
    rw [List.mem_toFinset, List.mem_toFinset]
    exact hiff k
  have hca := List.toFinset_card_of_nodup ha
  have hcb := List.toFinset_card_of_nodup hb
  rw [← objKeys_length a, ← objKeys_length b, ← hca, ← hcb, heq]

theorem sizeOf_node_lt_list (x : Spanned SValue) :
    ∀ (xs : List (Spanned SValue)), x ∈ xs →
      sizeOf x.node < sizeOf (SValue.list xs) := by
  intro xs
  induction xs with
  | nil => intro h; cases h
  | cons y rest ih =>
      intro h
      rcases List.mem_cons.mp h with heq | h2
      · subst heq
        obtain ⟨sp, nd⟩ := x
        simp
        omega
      · have := ih h2
        simp at this ⊢
        omega

theorem sizeOf_node_lt_obj (kv : Spanned String × Spanned SValue) :
    ∀ (fs : List (Spanned String × Spanned SValue)), kv ∈ fs →
      sizeOf kv.2.node < sizeOf (SValue.object fs) := by
  intro fs
  induction fs with
  | nil => intro h; cases h
  | cons kv2 rest ih =>
      intro h
      rcases List.mem_cons.mp h with heq | h2
      · subst heq
        obtain ⟨ks, v⟩ := kv
        obtain ⟨vsp, vnd⟩ := v
        simp
        omega
      · have := ih h2
        simp at this ⊢
        omega

theorem swf_list_elem :
    ∀ (xs : List (Spanned SValue)), swfList xs = true →
      ∀ x ∈ xs, swf x.node = true := by
  intro xs
  induction xs with
  | nil => intro _ x h; cases h
  | cons y rest ih =>
      intro hw x h
      obtain ⟨ysp, ynd⟩ := y
      simp only [swfList, Bool.and_eq_true] at hw
      rcases List.mem_cons.mp h with heq | h2
      · subst heq
        exact hw.1
      · exact ih hw.2 x h2

theorem swf_obj_elem :
    ∀ (fs : List (Spanned String × Spanned SValue)), swfObj fs = true →
      ∀ kv ∈ fs, swf kv.2.node = true := by
  intro fs
  induction fs with
  | nil => intro _ kv h; cases h
  | cons kv2 rest ih =>
      intro hw kv h
      obtain ⟨ks, ⟨vsp, vnd⟩⟩ := kv2
      simp only [swfObj, Bool.and_eq_true] at hw
      rcases List.mem_cons.mp h with heq | h2
      · subst heq
        exact hw.1
      · exact ih hw.2 kv h2

theorem veqList_char :
    ∀ (xs ys : List (Spanned SValue)),
      veqList xs ys = true ↔
        (xs.length = ys.length ∧
         ∀ i (h : i < xs.length) (h2 : i < ys.length),
           veq (xs.get ⟨i, h⟩).node (ys.get ⟨i, h2⟩).node = true) := by
  intro xs
  induction xs with
  | nil =>
      intro ys
      cases ys with
      | nil =>
          simp only [veqList, List.length_nil]
          constructor
          · intro _
            exact ⟨by simp, fun i h _ => absurd h (Nat.not_lt_zero i)⟩
          · intro _
            trivial
      | cons y yr =>
          simp only [veqList, List.length_nil, List.length_cons]
          constructor
          · intro h; exact Bool.noConfusion h
          · rintro ⟨hlen, _⟩; exact absurd hlen (by omega)
  | cons x xr ih =>
      intro ys
      cases ys with
      | nil =>
          obtain ⟨xsp, xn⟩ := x
          simp only [veqList, List.length_cons, List.length_nil]
          constructor
          · intro h; exact Bool.noConfusion h
          · rintro ⟨hlen, _⟩; exact absurd hlen (by omega)
      | cons y yr =>
          obtain ⟨xsp, xn⟩ := x
          obtain ⟨ysp, yn⟩ := y
          simp only [veqList, Bool.and_eq_true, List.length_cons]
          rw [ih yr]
          constructor
          · rintro ⟨h1, hlen, hel⟩
            refine ⟨by omega, ?_⟩
            intro i h h2
            cases i with
            | zero => exact h1
            | succ j =>
                exact hel j (Nat.lt_of_succ_lt_succ h) (Nat.lt_of_succ_lt_succ h2)
          · rintro ⟨hlen, hel⟩
            refine ⟨hel 0 (by omega) (by omega), by omega, ?_⟩
            intro j hj hj2
            exact hel (j + 1) (by omega) (by omega)

theorem veqObjAll_char :
    ∀ (a b : List (Spanned String × Spanned SValue)),
      veqObjAll a b = true ↔
        ∀ kv ∈ a, ∃ bv, findByKey kv.1.node b = some bv ∧
          veq kv.2.node bv.node = true := by
  intro a
  induction a with
  | nil =>
      intro b
      simp [veqObjAll]
  | cons kv ar ih =>
      obtain ⟨k, ⟨avsp, avn⟩⟩ := kv
      intro b
      simp only [veqObjAll, Bool.and_eq_true]
      rw [ih b]
      constructor
      · rintro ⟨h1, hrest⟩
        intro kv2 hkv2
        rcases List.mem_cons.mp hkv2 with heq | hm
        · subst heq
          cases hf : findByKey k.node b with
          | none => rw [hf] at h1; exact Bool.noConfusion h1
          | some bv =>
              rw [hf] at h1
              exact ⟨bv, rfl, h1⟩
        · exact hrest kv2 hm
      · intro hall
        constructor
        · obtain ⟨bv, hf, hv⟩ := hall (k, ⟨avsp, avn⟩) (by simp)
          rw [hf]
          exact hv
        · intro kv2 hm
          exact hall kv2 (by simp [hm])

theorem veq_iff_sequiv_fuel :
    ∀ (N : Nat) (a b : SValue), sizeOf a ≤ N → swf a = true → swf b = true →
      (veq a b = true ↔ SEquiv a b) := by
  intro N
  induction N with
  | zero =>
      intro a b ha
      exfalso
      cases a <;> simp at ha
  | succ N ih =>
      intro a b hsz hwa hwb
      cases a with
      | null =>
          cases b with
          | null =>
              simp only [veq]
              constructor
              · intro _; exact SEquiv.null
              · intro _; trivial
          | var t => simp only [veq]; exact ⟨fun h => Bool.noConfusion h, fun h => by cases h⟩
          | int m => simp only [veq]; exact ⟨fun h => Bool.noConfusion h, fun h => by cases h⟩
          | float g => simp only [veq]; exact ⟨fun h => Bool.noConfusion h, fun h => by cases h⟩
          | str t => simp only [veq]; exact ⟨fun h => Bool.noConfusion h, fun h => by cases h⟩
          | boolean w => simp only [veq]; exact ⟨fun h => Bool.noConfusion h, fun h => by cases h⟩
          | enum t => simp only [veq]; exact ⟨fun h => Bool.noConfusion h, fun h => by cases h⟩
          | list ys => simp only [veq]; exact ⟨fun h => Bool.noConfusion h, fun h => by cases h⟩
          | object fb => simp only [veq]; exact ⟨fun h => Bool.noConfusion h, fun h => by cases h⟩
      | var s =>
          cases b with
          | var t =>
              simp only [veq, beq_iff_eq]
              constructor
              · intro h; subst h; exact SEquiv.var s
              · intro h; cases h; rfl
          | null => simp only [veq]; exact ⟨fun h => Bool.noConfusion h, fun h => by cases h⟩
          | int n => simp only [veq]; exact ⟨fun h => Bool.noConfusion h, fun h => by cases h⟩
          | float f => simp only [veq]; exact ⟨fun h => Bool.noConfusion h, fun h => by cases h⟩
          | str t => simp only [veq]; exact ⟨fun h => Bool.noConfusion h, fun h => by cases h⟩
          | boolean v => simp only [veq]; exact ⟨fun h => Bool.noConfusion h, fun h => by cases h⟩
          | enum t => simp only [veq]; exact ⟨fun h => Bool.noConfusion h, fun h => by cases h⟩
          | list ys => simp only [veq]; exact ⟨fun h => Bool.noConfusion h, fun h => by cases h⟩
          | object fb => simp only [veq]; exact ⟨fun h => Bool.noConfusion h, fun h => by cases h⟩
      | int n =>
          cases b with
          | int m =>
              simp only [veq, beq_iff_eq]
              constructor
              · intro h; subst h; exact SEquiv.int n
              · intro h; cases h; rfl
          | null => simp only [veq]; exact ⟨fun h => Bool.noConfusion h, fun h => by cases h⟩
          | var t => simp only [veq]; exact ⟨fun h => Bool.noConfusion h, fun h => by cases h⟩
          | float f => simp only [veq]; exact ⟨fun h => Bool.noConfusion h, fun h => by cases h⟩
          | str t => simp only [veq]; exact ⟨fun h => Bool.noConfusion h, fun h => by cases h⟩
          | boolean v => simp only [veq]; exact ⟨fun h => Bool.noConfusion h, fun h => by cases h⟩
          | enum t => simp only [veq]; exact ⟨fun h => Bool.noConfusion h, fun h => by cases h⟩
          | list ys => simp only [veq]; exact ⟨fun h => Bool.noConfusion h, fun h => by cases h⟩
          | object fb => simp only [veq]; exact ⟨fun h => Bool.noConfusion h, fun h => by cases h⟩
      | float f =>
          cases b with
          | float g =>
              simp only [veq, beq_iff_eq]
              constructor
              · intro h; subst h; exact SEquiv.float f
              · intro h; cases h; rfl
          | null => simp only [veq]; exact ⟨fun h => Bool.noConfusion h, fun h => by cases h⟩
          | var t => simp only [veq]; exact ⟨fun h => Bool.noConfusion h, fun h => by cases h⟩
          | int m => simp only [veq]; exact ⟨fun h => Bool.noConfusion h, fun h => by cases h⟩
          | str t => simp only [veq]; exact ⟨fun h => Bool.noConfusion h, fun h => by cases h⟩
          | boolean v => simp only [veq]; exact ⟨fun h => Bool.noConfusion h, fun h => by cases h⟩
          | enum t => simp only [veq]; exact ⟨fun h => Bool.noConfusion h, fun h => by cases h⟩
          | list ys => simp only [veq]; exact ⟨fun h => Bool.noConfusion h, fun h => by cases h⟩
          | object fb => simp only [veq]; exact ⟨fun h => Bool.noConfusion h, fun h => by cases h⟩
      | str s =>
          cases b with
          | str t =>
              simp only [veq, beq_iff_eq]
              constructor
              · intro h; subst h; exact SEquiv.str s
              · intro h; cases h; rfl
          | null => simp only [veq]; exact ⟨fun h => Bool.noConfusion h, fun h => by cases h⟩
          | var t => simp only [veq]; exact ⟨fun h => Bool.noConfusion h, fun h => by cases h⟩
          | int m => simp only [veq]; exact ⟨fun h => Bool.noConfusion h, fun h => by cases h⟩
          | float g => simp only [veq]; exact ⟨fun h => Bool.noConfusion h, fun h => by cases h⟩
          | boolean v => simp only [veq]; exact ⟨fun h => Bool.noConfusion h, fun h => by cases h⟩
          | enum t => simp only [veq]; exact ⟨fun h => Bool.noConfusion h, fun h => by cases h⟩
          | list ys => simp only [veq]; exact ⟨fun h => Bool.noConfusion h, fun h => by cases h⟩
          | object fb => simp only [veq]; exact ⟨fun h => Bool.noConfusion h, fun h => by cases h⟩
      | boolean v =>
          cases b with
          | boolean w =>
              simp only [veq, beq_iff_eq]
              constructor
              · intro h; subst h; exact SEquiv.boolean v
              · intro h; cases h; rfl
          | null => simp only [veq]; exact ⟨fun h => Bool.noConfusion h, fun h => by cases h⟩
          | var t => simp only [veq]; exact ⟨fun h => Bool.noConfusion h, fun h => by cases h⟩
          | int m => simp only [veq]; exact ⟨fun h => Bool.noConfusion h, fun h => by cases h⟩
          | float g => simp only [veq]; exact ⟨fun h => Bool.noConfusion h, fun h => by cases h⟩
          | str t => simp only [veq]; exact ⟨fun h => Bool.noConfusion h, fun h => by cases h⟩
          | enum t => simp only [veq]; exact ⟨fun h => Bool.noConfusion h, fun h => by cases h⟩
          | list ys => simp only [veq]; exact ⟨fun h => Bool.noConfusion h, fun h => by cases h⟩
          | object fb => simp only [veq]; exact ⟨fun h => Bool.noConfusion h, fun h => by cases h⟩
      | enum s =>
          cases b with
          | enum t =>
              simp only [veq, beq_iff_eq]
              constructor
              · intro h; subst h; exact SEquiv.enum s
              · intro h; cases h; rfl
          | null => simp only [veq]; exact ⟨fun h => Bool.noConfusion h, fun h => by cases h⟩
          | var t => simp only [veq]; exact ⟨fun h => Bool.noConfusion h, fun h => by cases h⟩
          | int m => simp only [veq]; exact ⟨fun h => Bool.noConfusion h, fun h => by cases h⟩
          | float g => simp only [veq]; exact ⟨fun h => Bool.noConfusion h, fun h => by cases h⟩
          | str t => simp only [veq]; exact ⟨fun h => Bool.noConfusion h, fun h => by cases h⟩
          | boolean w => simp only [veq]; exact ⟨fun h => Bool.noConfusion h, fun h => by cases h⟩
          | list ys => simp only [veq]; exact ⟨fun h => Bool.noConfusion h, fun h => by cases h⟩
          | object fb => simp only [veq]; exact ⟨fun h => Bool.noConfusion h, fun h => by cases h⟩
      | list xs =>
          cases b with
          | list ys =>
              have hwxs : swfList xs = true := by
                simp only [swf] at hwa; exact hwa
              have hwys : swfList ys = true := by
                simp only [swf] at hwb; exact hwb
              have hveq : veq (SValue.list xs) (SValue.list ys) = veqList xs ys := by
                simp only [veq]
              rw [hveq, veqList_char]
              constructor
              · rintro ⟨hlen, hel⟩
                refine SEquiv.list xs ys hlen ?_
                intro i h h2
                have hxm := List.get_mem xs i h
                have hym := List.get_mem ys i h2
                have hb : sizeOf (xs.get ⟨i, h⟩).node ≤ N := by
                  have := sizeOf_node_lt_list (xs.get ⟨i, h⟩) xs hxm
                  omega
                exact (ih _ _ hb (swf_list_elem xs hwxs _ hxm)
                  (swf_list_elem ys hwys _ hym)).mp (hel i h h2)
              · intro h
                cases h with
                | list _ _ hlen hel =>
                    refine ⟨hlen, ?_⟩
                    intro i h h2
                    have hxm := List.get_mem xs i h
                    have hym := List.get_mem ys i h2
                    have hb : sizeOf (xs.get ⟨i, h⟩).node ≤ N := by
                      have := sizeOf_node_lt_list (xs.get ⟨i, h⟩) xs hxm
                      omega
                    exact (ih _ _ hb (swf_list_elem xs hwxs _ hxm)
                      (swf_list_elem ys hwys _ hym)).mpr (hel i h h2)
          | null => simp only [veq]; exact ⟨fun h => Bool.noConfusion h, fun h => by cases h⟩
          | var t => simp only [veq]; exact ⟨fun h => Bool.noConfusion h, fun h => by cases h⟩
          | int m => simp only [veq]; exact ⟨fun h => Bool.noConfusion h, fun h => by cases h⟩
          | float g => simp only [veq]; exact ⟨fun h => Bool.noConfusion h, fun h => by cases h⟩
          | str t => simp only [veq]; exact ⟨fun h => Bool.noConfusion h, fun h => by cases h⟩
          | boolean w => simp only [veq]; exact ⟨fun h => Bool.noConfusion h, fun h => by cases h⟩
          | enum t => simp only [veq]; exact ⟨fun h => Bool.noConfusion h, fun h => by cases h⟩
          | object fb => simp only [veq]; exact ⟨fun h => Bool.noConfusion h, fun h => by cases h⟩
      | object fa =>
          cases b with
          | object fb =>
              have hna : nodupKeysB fa = true := by
                simp only [swf, Bool.and_eq_true] at hwa; exact hwa.1
              have hsa : swfObj fa = true := by
                simp only [swf, Bool.and_eq_true] at hwa; exact hwa.2
              have hnb : nodupKeysB fb = true := by
                simp only [swf, Bool.and_eq_true] at hwb; exact hwb.1
              have hsb : swfObj fb = true := by
                simp only [swf, Bool.and_eq_true] at hwb; exact hwb.2
              have hnda : (objKeys fa).Nodup := (nodupKeysB_iff_nodup fa).mp hna
              have hndb : (objKeys fb).Nodup := (nodupKeysB_iff_nodup fb).mp hnb
              have hveq : veq (SValue.object fa) (SValue.object fb) =
                  (fa.length == fb.length && veqObjAll fa fb) := by
                simp only [veq]
              rw [hveq, Bool.and_eq_true, beq_iff_eq, veqObjAll_char]
              constructor
              · rintro ⟨hlen, hall⟩
                have hsub : ∀ k, k ∈ objKeys fa → k ∈ objKeys fb := by
                  intro k hk
                  obtain ⟨kv, hm, hkn⟩ := List.mem_map.mp hk
                  obtain ⟨bv, hf, _⟩ := hall kv hm
                  rw [← findByKey_isSome_iff_mem]
                  rw [hkn] at hf
                  rw [hf]
                  rfl
                have hkiff := key_iff_of_subset_len fa fb hnda hndb hsub hlen
                refine SEquiv.object fa fb ?_ ?_
                · intro k
                  cases hfa : findByKey k fa with
                  | some v =>
                      have hk : k ∈ objKeys fa := by
                        rw [← findByKey_isSome_iff_mem, hfa]; rfl
                      have hk2 := (hkiff k).mp hk
                      rw [← findByKey_isSome_iff_mem] at hk2
                      cases hfb : findByKey k fb with
                      | some w => rfl
                      | none => rw [hfb] at hk2; simp at hk2
                  | none =>
                      cases hfb : findByKey k fb with
                      | none => rfl
                      | some w =>
                          have hk : k ∈ objKeys fb := by
                            rw [← findByKey_isSome_iff_mem, hfb]; rfl
                          have hk2 := (hkiff k).mpr hk
                          rw [← findByKey_isSome_iff_mem, hfa] at hk2
                          simp at hk2
                · intro k v w hfa hfb
                  obtain ⟨ks, hm, hkn⟩ := findByKey_some_mem fa k v hfa
                  obtain ⟨bv, hf, hv⟩ := hall (ks, v) hm
                  rw [hkn, hfb] at hf
                  have hbw := Option.some.inj hf
                  subst hbw
                  have hb : sizeOf v.node ≤ N := by
                    have := sizeOf_node_lt_obj (ks, v) fa hm
                    simp only at this
                    omega
                  obtain ⟨ks2, hm2, _⟩ := findByKey_some_mem fb k w hfb
                  exact (ih _ _ hb (swf_obj_elem fa hsa (ks, v) hm)
                    (swf_obj_elem fb hsb (ks2, w) hm2)).mp hv
              · intro h
                cases h with
                | object _ _ hkey hval =>
                    have hkiff : ∀ k, k ∈ objKeys fa ↔ k ∈ objKeys fb := by
                      intro k
                      rw [← findByKey_isSome_iff_mem, ← findByKey_isSome_iff_mem]
                      cases hfa : findByKey k fa with
                      | some v =>
                          have := hkey k
                          rw [hfa] at this
                          cases hfb : findByKey k fb with
                          | some w => simp
                          | none => rw [hfb] at this; simp at this
                      | none =>
                          have := hkey k
                          rw [hfa] at this
                          cases hfb : findByKey k fb with
                          | some w => rw [hfb] at this; simp at this
                          | none => simp
                    refine ⟨length_eq_of_key_iff fa fb hnda hndb hkiff, ?_⟩
                    intro kv hm
                    obtain ⟨ks, v⟩ := kv
                    have hfa : findByKey ks.node fa = some v :=
                      nodup_mem_findByKey fa hna ks v hm
                    have hk : ks.node ∈ objKeys fa := by
                      rw [← findByKey_isSome_iff_mem, hfa]; rfl
                    have hk2 := (hkiff ks.node).mp hk
                    rw [← findByKey_isSome_iff_mem] at hk2
                    cases hfb : findByKey ks.node fb with
                    | none => rw [hfb] at hk2; simp at hk2
                    | some w =>
                        have hse := hval ks.node v w hfa hfb
                        have hb : sizeOf v.node ≤ N := by
                          have := sizeOf_node_lt_obj (ks, v) fa hm
                          simp only at this
                          omega
                        obtain ⟨ks2, hm2, _⟩ := findByKey_some_mem fb ks.node w hfb
                        refine ⟨w, by simp [hfb], ?_⟩
                        exact (ih _ _ hb (swf_obj_elem fa hsa (ks, v) hm)
                          (swf_obj_elem fb hsb (ks2, w) hm2)).mpr hse
          | null => simp only [veq]; exact ⟨fun h => Bool.noConfusion h, fun h => by cases h⟩
          | var t => simp only [veq]; exact ⟨fun h => Bool.noConfusion h, fun h => by cases h⟩
          | int m => simp only [veq]; exact ⟨fun h => Bool.noConfusion h, fun h => by cases h⟩
          | float g => simp only [veq]; exact ⟨fun h => Bool.noConfusion h, fun h => by cases h⟩
          | str t => simp only [veq]; exact ⟨fun h => Bool.noConfusion h, fun h => by cases h⟩
          | boolean w => simp only [veq]; exact ⟨fun h => Bool.noConfusion h, fun h => by cases h⟩
          | enum t => simp only [veq]; exact ⟨fun h => Bool.noConfusion h, fun h => by cases h⟩
          | list ys => simp only [veq]; exact ⟨fun h => Bool.noConfusion h, fun h => by cases h⟩

/-- C9: for well-formed values (objects with `BTreeMap`-unique keys,
the invariant of parsed maps), the hand-written `PartialEq` of the
spanned `Value` is exactly the claim-side structural, span-insensitive
equivalence: same variant with equal payloads, lists element-wise in
order ignoring element spans, objects by key set with equal associated
values, independent of key insertion order and of the spans attached to
keys and values. -/
theorem value_partial_eq_spec (a b : SValue)
    (hwa : swf a = true) (hwb : swf b = true) :
    veq a b = true ↔ SEquiv a b :=
  veq_iff_sequiv_fuel (sizeOf a) a b (Nat.le_refl _) hwa hwb

/-- Witness for `value_partial_eq_spec`: two one-entry objects that
differ in every span (and in nothing else) compare equal. -/
theorem value_partial_eq_spec_witness :
    SEquiv
      (SValue.object
        [(⟨⟨⟨1, 1⟩, ⟨1, 2⟩⟩, "x"⟩, ⟨⟨⟨1, 3⟩, ⟨1, 4⟩⟩, SValue.int 1⟩)])
      (SValue.object
        [(⟨⟨⟨2, 1⟩, ⟨2, 2⟩⟩, "x"⟩, ⟨⟨⟨2, 3⟩, ⟨2, 4⟩⟩, SValue.int 1⟩)]) :=
  (value_partial_eq_spec
      (SValue.object
        [(⟨⟨⟨1, 1⟩, ⟨1, 2⟩⟩, "x"⟩, ⟨⟨⟨1, 3⟩, ⟨1, 4⟩⟩, SValue.int 1⟩)])
      (SValue.object
        [(⟨⟨⟨2, 1⟩, ⟨2, 2⟩⟩, "x"⟩, ⟨⟨⟨2, 3⟩, ⟨2, 4⟩⟩, SValue.int 1⟩)])
      (by simp [swf, nodupKeysB, swfObj, findByKey])
      (by simp [swf, nodupKeysB, swfObj, findByKey])).mp
    (by simp [veq, veqObjAll, findByKey])

/-- `Directive` (parser/ast.rs:23-27): name and argument map. -/
structure DirectiveAst where
  name : Spanned String
  arguments : List (Spanned String × Spanned SValue)

/-- The parsed content of one `Rule::directive` pair — what
`parse_directives` receives for each directive written in the source
text. -/
structure RawDirective where
  name : Spanned String
  arguments : List (Spanned String × Spanned SValue)

mutual

/-- `Field` (parser/ast.rs:104-111).  `alias` is a reserved Lean token,
the field is named `alias_`. -/
inductive FieldAst where
  | mk (alias_ : Option (Spanned String)) (name : Spanned String)
      (arguments : List (Spanned String × Spanned SValue))
      (directives : List (Spanned DirectiveAst))
      (selection_set : Spanned SelectionSetAst)

/-- `Selection` (parser/ast.rs:97-102). -/
inductive SelectionAst where
  | field (f : Spanned FieldAst)
  | fragmentSpread (fragment_name : Spanned String)
      (directives : List (Spanned DirectiveAst))
  | inlineFragment (type_condition : Option (Spanned String))
      (directives : List (Spanned DirectiveAst))
      (selection_set : Spanned SelectionSetAst)

/-- `SelectionSet` (parser/ast.rs:85-88). -/
inductive SelectionSetAst where
  | mk (items : List (Spanned SelectionAst))

end

/-- The `directives` component of a parsed field. -/
def FieldAst.directives : FieldAst → List (Spanned DirectiveAst)
  | .mk _ _ _ ds _ => ds

/-- `parse_directives` (parser/parser.rs:172-181): the function builds
an **immutable empty** vector, its loop matches every inner
`Rule::directive` pair and does nothing with it, and the empty vector
is returned — every directive written in the query text is dropped. -/
def parse_directives (pairs : List RawDirective) :
    List (Spanned DirectiveAst) :=
  pairs.foldl (fun acc _ => acc) []

/-- The parsed components of one `Rule::field` pair, as `parse_field`'s
loop collects them (each sub-rule parsed by its own function). -/
structure RawFieldContent where
  alias_ : Option (Spanned String)
  name : Spanned String
  arguments : Option (List (Spanned String × Spanned SValue))
  directives : Option (List RawDirective)
  selection_set : Option (Spanned SelectionSetAst)

/-- The `Default` selection set used by `unwrap_or_default`. -/
def defaultSelectionSet : Spanned SelectionSetAst :=
  ⟨⟨⟨0, 0⟩, ⟨0, 0⟩⟩, .mk []⟩

/-- `parse_field` (parser/parser.rs:276-305): assemble the `Field` from
the collected sub-rules; absent arguments/directives/selection set
default to empty.  The directives come from `parse_directives`. -/
def parse_field (raw : RawFieldContent) (span : Span) : Spanned FieldAst :=
  ⟨span,
    .mk raw.alias_ raw.name (raw.arguments.getD [])
      ((raw.directives.map parse_directives).getD [])
      (raw.selection_set.getD defaultSelectionSet)⟩

theorem foldl_const {α β : Type} :
    ∀ (xs : List β) (acc : List α), xs.foldl (fun a _ => a) acc = acc := by
  intro xs
  induction xs with
  | nil => intro acc; rfl
  | cons x rest ih => intro acc; exact ih acc

/-- C1 (code bug): the grammar accepts directives but `parse_directives`
drops them all — an immutable empty vector is built and returned, the
loop body discarding every parsed directive.  A field written as
`a @skip(if: true)` therefore parses to a `Field` whose `directives`
vector is empty instead of holding the one written directive, and the
same happens for every directive list (`parse_directives` is constantly
empty). -/
theorem parse_directives_drops_all :
    parse_directives
        [⟨⟨⟨⟨1, 4⟩, ⟨1, 8⟩⟩, "skip"⟩,
          [(⟨⟨⟨1, 9⟩, ⟨1, 11⟩⟩, "if"⟩,
            ⟨⟨⟨1, 13⟩, ⟨1, 17⟩⟩, SValue.boolean true⟩)]⟩] = [] ∧
    (parse_field
        ⟨none, ⟨⟨⟨1, 1⟩, ⟨1, 2⟩⟩, "a"⟩, none,
          some [⟨⟨⟨⟨1, 4⟩, ⟨1, 8⟩⟩, "skip"⟩,
            [(⟨⟨⟨1, 9⟩, ⟨1, 11⟩⟩, "if"⟩,
              ⟨⟨⟨1, 13⟩, ⟨1, 17⟩⟩, SValue.boolean true⟩)]⟩],
          none⟩
        ⟨⟨1, 1⟩, ⟨1, 17⟩⟩).node.directives = [] ∧
    (∀ pairs : List RawDirective, parse_directives pairs = []) :=
  ⟨rfl, rfl, fun pairs => foldl_const pairs []⟩

theorem sequiv_refl_fuel : ∀ (N : Nat) (a : SValue), sizeOf a ≤ N → SEquiv a a := by
  intro N
  induction N with
  | zero =>
      intro a ha
      exfalso
      cases a <;> simp at ha
  | succ N ih =>
      intro a hsz
      cases a with
      | null => exact .null
      | var s => exact .var s
      | int n => exact .int n
      | float f => exact .float f
      | str s => exact .str s
      | boolean b => exact .boolean b
      | enum s => exact .enum s
      | list xs =>
          refine .list xs xs rfl ?_
          intro i h h2
          have hm := List.get_mem xs i h
          have hb : sizeOf (xs.get ⟨i, h⟩).node ≤ N := by
            have := sizeOf_node_lt_list (xs.get ⟨i, h⟩) xs hm
            omega
          exact ih _ hb
      | object fa =>
          refine .object fa fa (fun k => rfl) ?_
          intro k v w h1 h2
          rw [h1] at h2
          have hvw := Option.some.inj h2
          subst hvw
          obtain ⟨ks, hm, _⟩ := findByKey_some_mem fa k v h1
          have hb : sizeOf v.node ≤ N := by
            have := sizeOf_node_lt_obj (ks, v) fa hm
            simp only at this
            omega
          exact ih _ hb

theorem sequiv_refl (a : SValue) : SEquiv a a :=
  sequiv_refl_fuel (sizeOf a) a (Nat.le_refl _)

theorem sequiv_symm : ∀ {a b : SValue}, SEquiv a b → SEquiv b a := by
  intro a b h
  induction h with
  | null => exact .null
  | var s => exact .var s
  | int n => exact .int n
  | float f => exact .float f
  | str s => exact .str s
  | boolean b => exact .boolean b
  | enum s => exact .enum s
  | list xs ys hlen _ ih =>
      exact .list ys xs hlen.symm (fun i h h2 => ih i h2 h)
  | object fa fb hkey _ ih =>
      exact .object fb fa (fun k => (hkey k).symm)
        (fun k v w h1 h2 => ih k w v h2 h1)

theorem sequiv_trans : ∀ {a b c : SValue}, SEquiv a b → SEquiv b c → SEquiv a c := by
  intro a b c h1
  induction h1 generalizing c with
  | null => intro h2; exact h2
  | var s => intro h2; exact h2
  | int n => intro h2; exact h2
  | float f => intro h2; exact h2
  | str s => intro h2; exact h2
  | boolean b => intro h2; exact h2
  | enum s => intro h2; exact h2
  | list xs ys hlen hel ih =>
      intro h2
      cases h2 with
      | list _ zs hlen2 hel2 =>
          refine .list xs zs (hlen.trans hlen2) ?_
          intro i h h2
          have hy : i < ys.length := by omega
          exact ih i h hy (hel2 i hy h2)
  | object fa fb hkey hval ih =>
      intro h2
      cases h2 with
      | object _ fc hkey2 hval2 =>
          refine .object fa fc (fun k => (hkey k).trans (hkey2 k)) ?_
          intro k v w hfav hfcw
          have hsome : (findByKey k fb).isSome = true := by
            rw [← hkey k, hfav]; rfl
          obtain ⟨u, hu⟩ := Option.isSome_iff_exists.mp hsome
          exact ih k v u hfav hu (hval2 k u w hu hfcw)

theorem veq_refl (a : SValue) (hw : swf a = true) : veq a a = true :=
  (veq_iff_sequiv_fuel (sizeOf a) a a (Nat.le_refl _) hw hw).mpr (sequiv_refl a)

theorem veq_symm (a b : SValue) (hwa : swf a = true) (hwb : swf b = true)
    (h : veq a b = true) : veq b a = true :=
  (veq_iff_sequiv_fuel (sizeOf b) b a (Nat.le_refl _) hwb hwa).mpr
    (sequiv_symm ((veq_iff_sequiv_fuel (sizeOf a) a b (Nat.le_refl _) hwa hwb).mp h))

theorem veq_trans (a b c : SValue) (hwa : swf a = true) (hwb : swf b = true)
    (hwc : swf c = true) (h1 : veq a b = true) (h2 : veq b c = true) :
    veq a c = true :=
  (veq_iff_sequiv_fuel (sizeOf a) a c (Nat.le_refl _) hwa hwc).mpr
    (sequiv_trans
      ((veq_iff_sequiv_fuel (sizeOf a) a b (Nat.le_refl _) hwa hwb).mp h1)
      ((veq_iff_sequiv_fuel (sizeOf b) b c (Nat.le_refl _) hwb hwc).mp h2))

theorem lookupAssoc_isSome_iff {α : Type} :
    ∀ (l : List (String × α)) (k : String),
      (lookupAssoc l k).isSome = true ↔ k ∈ l.map Prod.fst := by
  intro l
  induction l with
  | nil => intro k; simp [lookupAssoc]
  | cons kv rest ih =>
      intro k
      obtain ⟨k2, v⟩ := kv
      by_cases hk : k2 = k
      · simp [lookupAssoc, hk]
      · simp only [lookupAssoc, if_neg hk, List.map_cons, List.mem_cons]
        rw [ih k]
        constructor
        · intro h; exact Or.inr h
        · intro h
          rcases h with h | h
          · exact absurd h.symm hk
          · exact h

theorem lookupAssoc_some_mem {α : Type} :
    ∀ (l : List (String × α)) (k : String) (v : α),
      lookupAssoc l k = some v → (k, v) ∈ l := by
  intro l
  induction l with
  | nil => intro k v h; cases h
  | cons kv rest ih =>
      intro k v h
      obtain ⟨k2, w⟩ := kv
      by_cases hk : k2 = k
      · rw [lookupAssoc, if_pos hk] at h
        cases h
        subst hk
        simp
      · rw [lookupAssoc, if_neg hk] at h
        simp [ih k v h]

theorem lookupAssoc_of_mem_nodup {α : Type} :
    ∀ (l : List (String × α)), (l.map Prod.fst).Nodup →
      ∀ (k : String) (v : α), (k, v) ∈ l → lookupAssoc l k = some v := by
  intro l
  induction l with
  | nil => intro _ k v h; cases h
  | cons kv rest ih =>
      intro hnd k v h
      obtain ⟨k2, w⟩ := kv
      simp only [List.map_cons, List.nodup_cons] at hnd
      rcases List.mem_cons.mp h with heq | hm
      · cases heq
        rw [lookupAssoc, if_pos rfl]
      · by_cases hk : k2 = k
        · exfalso
          subst hk
          exact hnd.1 (List.mem_map.mpr ⟨(k2, v), hm, rfl⟩)
        · rw [lookupAssoc, if_neg hk]
          exact ih hnd.2 k v hm

theorem assoc_key_iff {α β : Type} (a : List (String × α)) (b : List (String × β))
    (ha : (a.map Prod.fst).Nodup) (hb : (b.map Prod.fst).Nodup)
    (hsub : ∀ k, k ∈ a.map Prod.fst → k ∈ b.map Prod.fst)
    (hlen : a.length = b.length) :
    ∀ k, k ∈ a.map Prod.fst ↔ k ∈ b.map Prod.fst := by
  have hsub2 : (a.map Prod.fst).toFinset ⊆ (b.map Prod.fst).toFinset := by
    intro k hk
    rw [List.mem_toFinset] at hk
    rw [List.mem_toFinset]
    exact hsub k hk
  have hca : (a.map Prod.fst).toFinset.card = a.length := by
    rw [List.toFinset_card_of_nodup ha, List.length_map]
  have hcb : (b.map Prod.fst).toFinset.card = b.length := by
    rw [List.toFinset_card_of_nodup hb, List.length_map]
  have heq : (a.map Prod.fst).toFinset = (b.map Prod.fst).toFinset :=
    Finset.eq_of_subset_of_card_le hsub2 (by rw [hca, hcb, hlen])
  intro k
  rw [← List.mem_toFinset, ← List.mem_toFinset, heq]

/-- A field as the `OverlappingFieldsCanBeMerged` rule consumes it:
its position, optional alias, name and argument map.  The rule never
reads spans of names/keys, so they are carried as plain strings;
argument values are compared through the span-ignoring `Value`
equality. -/
structure FieldR where
  pos : Pos
  alias_ : Option String
  name : String
  arguments : List (String × SValue)

/-- A selection as the rule consumes it: a field, an inline fragment
(only its selection set is read), or a fragment spread (only the target
name is read). -/
inductive SelectionR where
  | field (f : FieldR)
  | inlineFragment (items : List SelectionR)
  | fragmentSpread (name : String)

/-- A reported merge conflict: the two positions passed to
`ctx.report_error` (`vec![prev_field.position, field.position]`); the
message text is elided. -/
structure MergeErr where
  p1 : Pos
  p2 : Pos
deriving DecidableEq

/-- The response key: `field.alias.as_deref().unwrap_or(field.name)`
(overlapping_fields_can_be_merged.rs:32-35). -/
def responseKey (f : FieldR) : String := f.alias_.getD f.name

/-- The argument-check loop of `add_output`
(overlapping_fields_can_be_merged.rs:66-78): each argument of the
previous field is looked up by name in the new field and compared; a
missing or unequal argument reports a conflict. -/
def argErrs (bargs : List (String × SValue)) (pp : MergeErr) :
    List (String × SValue) → List MergeErr
  | [] => []
  | kv :: rest =>
      (match lookupAssoc bargs kv.1 with
       | some other => if veq kv.2 other then [] else [pp]
       | none => [pp]) ++ argErrs bargs pp rest

/-- The errors `add_output` reports for a same-key pair, in report
order: name conflict, argument-count conflict, per-argument
conflicts. -/
def errsFor (prev f : FieldR) : List MergeErr :=
  (if prev.name = f.name then [] else [⟨prev.pos, f.pos⟩]) ++
  (if prev.arguments.length = f.arguments.length then []
   else [⟨prev.pos, f.pos⟩]) ++
  argErrs f.arguments ⟨prev.pos, f.pos⟩ prev.arguments

/-- `FindConflicts::add_output`
(overlapping_fields_can_be_merged.rs:50-82): a fresh response key
stores the field; a key seen before compares the new field against the
stored first occurrence and reports the conflicts. -/
def add_output (st : List (String × FieldR) × List MergeErr)
    (name : String) (f : FieldR) :
    List (String × FieldR) × List MergeErr :=
  match lookupAssoc st.1 name with
  | some prev => (st.1, st.2 ++ errsFor prev f)
  | none => (st.1 ++ [(name, f)], st.2)

mutual

/-- One selection step of `FindConflicts::find`
(overlapping_fields_can_be_merged.rs:28-48): a field is registered by
response key; an inline fragment's selection set and a known fragment's
selection set are expanded in place (a spread missing from the fragment
map is skipped).  The Rust recursion has no bound and diverges on
cyclic fragments; `fuel` bounds the expansion depth, and the theorems
quantify over all fuels. -/
def findOne (fm : List (String × List SelectionR)) :
    Nat → (List (String × FieldR) × List MergeErr) → SelectionR →
      List (String × FieldR) × List MergeErr
  | _, st, .field f => add_output st (responseKey f) f
  | fuel, st, .inlineFragment items =>
      match fuel with
      | 0 => st
      | fu + 1 => findList fm fu st items
  | fuel, st, .fragmentSpread n =>
      match fuel, lookupAssoc fm n with
      | fu + 1, some items => findList fm fu st items
      | _, _ => st
termination_by fuel _ _ => (fuel, 0)

/-- The selection-set loop of `FindConflicts::find`. -/
def findList (fm : List (String × List SelectionR)) :
    Nat → (List (String × FieldR) × List MergeErr) → List SelectionR →
      List (String × FieldR) × List MergeErr
  | _, st, [] => st
  | fuel, st, sel :: rest => findList fm fuel (findOne fm fuel st sel) rest
termination_by fuel _ l => (fuel, l.length + 1)

end

mutual

/-- The claim-side in-place expansion of one selection: the fields it
contributes in document order, with the same fuel discipline as
`findOne`. -/
def walkOne (fm : List (String × List SelectionR)) :
    Nat → SelectionR → List FieldR
  | _, .field f => [f]
  | fuel, .inlineFragment items =>
      match fuel with
      | 0 => []
      | fu + 1 => walkList fm fu items
  | fuel, .fragmentSpread n =>
      match fuel, lookupAssoc fm n with
      | fu + 1, some items => walkList fm fu items
      | _, _ => []
termination_by fuel _ => (fuel, 0)

/-- The claim-side in-place expansion of a selection set. -/
def walkList (fm : List (String × List SelectionR)) :
    Nat → List SelectionR → List FieldR
  | _, [] => []
  | fuel, sel :: rest => walkOne fm fuel sel ++ walkList fm fuel rest
termination_by fuel l => (fuel, l.length + 1)

end

/-- One `add_output` step as a fold function. -/
def collectStep (st : List (String × FieldR) × List MergeErr) (f : FieldR) :
    List (String × FieldR) × List MergeErr :=
  add_output st (responseKey f) f

mutual

theorem findOne_eq_foldl (fm : List (String × List SelectionR)) :
    ∀ (fuel : Nat) (sel : SelectionR)
      (st : List (String × FieldR) × List MergeErr),
      findOne fm fuel st sel = (walkOne fm fuel sel).foldl collectStep st
  | fuel, .field f, st => by
      simp only [findOne, walkOne, List.foldl_cons, List.foldl_nil, collectStep]
  | fuel, .inlineFragment items, st => by
      cases fuel with
      | zero => simp only [findOne, walkOne, List.foldl_nil]
      | succ fu =>
          simp only [findOne, walkOne]
          exact findList_eq_foldl fm fu items st
  | fuel, .fragmentSpread n, st => by
      cases fuel with
      | zero => simp only [findOne, walkOne, List.foldl_nil]
      | succ fu =>
          cases hl : lookupAssoc fm n with
          | some items =>
              unfold findOne walkOne
              rw [hl]
              exact findList_eq_foldl fm fu items st
          | none =>
              unfold findOne walkOne
              rw [hl]
              rfl
termination_by fuel _ _ => (fuel, 0)

theorem findList_eq_foldl (fm : List (String × List SelectionR)) :
    ∀ (fuel : Nat) (sels : List SelectionR)
      (st : List (String × FieldR) × List MergeErr),
      findList fm fuel st sels = (walkList fm fuel sels).foldl collectStep st
  | fuel, [], st => by
      simp only [findList, walkList, List.foldl_nil]
  | fuel, sel :: rest, st => by
      simp only [findList, walkList, List.foldl_append]
      rw [findOne_eq_foldl fm fuel sel st]
      exact findList_eq_foldl fm fuel rest _
termination_by fuel sels _ => (fuel, sels.length + 1)

end

/-- One argument of the first field is matched in the second field's
argument map with an equal value. -/
def argOkB (bargs : List (String × SValue)) (kv : String × SValue) : Bool :=
  match lookupAssoc bargs kv.1 with
  | some w => veq kv.2 w
  | none => false

/-- The claim's argument-set equality: same number of arguments and
every argument name of the first mapped, in the second, to an equal
value. -/
def argsMatch (a b : List (String × SValue)) : Prop :=
  a.length = b.length ∧ ∀ kv ∈ a, argOkB b kv = true

/-- The `BTreeMap` invariant of a parsed field's argument map: distinct
argument names, well-formed argument values. -/
def fieldWF (f : FieldR) : Prop :=
  (f.arguments.map Prod.fst).Nodup ∧ ∀ kv ∈ f.arguments, swf kv.2 = true

/-- The claim's merge condition on two same-key fields: identical field
name and equal argument sets. -/
def fieldAgree (f g : FieldR) : Prop :=
  f.name = g.name ∧ argsMatch f.arguments g.arguments

theorem argErrs_eq_nil :
    ∀ (args bargs : List (String × SValue)) (pp : MergeErr),
      argErrs bargs pp args = [] ↔ ∀ kv ∈ args, argOkB bargs kv = true := by
  intro args
  induction args with
  | nil => intro bargs pp; simp [argErrs]
  | cons kv rest ih =>
      intro bargs pp
      simp only [argErrs, List.append_eq_nil]
      rw [ih bargs pp]
      constructor
      · rintro ⟨h1, h2⟩
        intro kv2 hm
        rcases List.mem_cons.mp hm with heq | hm2
        · subst heq
          cases hf : lookupAssoc bargs kv2.1 with
          | none =>
              simp only [hf] at h1
              exact absurd h1 (by simp)
          | some w =>
              simp only [hf] at h1
              simp only [argOkB, hf]
              by_cases hv : veq kv2.2 w = true
              · exact hv
              · rw [if_neg hv] at h1
                exact absurd h1 (by simp)
        · exact h2 kv2 hm2
      · intro hall
        constructor
        · have hh := hall kv (by simp)
          cases hf : lookupAssoc bargs kv.1 with
          | none =>
              simp only [argOkB, hf] at hh
              exact Bool.noConfusion hh
          | some w =>
              simp only [argOkB, hf] at hh
              simp only [hf, if_pos hh]
        · intro kv2 hm; exact hall kv2 (by simp [hm])

theorem argErrs_mem :
    ∀ (args bargs : List (String × SValue)) (pp e : MergeErr),
      e ∈ argErrs bargs pp args → e = pp := by
  intro args
  induction args with
  | nil => intro bargs pp e h; cases h
  | cons kv rest ih =>
      intro bargs pp e h
      simp only [argErrs, List.mem_append] at h
      rcases h with h | h
      · cases hf : lookupAssoc bargs kv.1 with
        | none =>
            simp only [hf] at h
            simpa using h
        | some w =>
            simp only [hf] at h
            by_cases hv : veq kv.2 w = true
            · rw [if_pos hv] at h
              simp at h
            · rw [if_neg hv] at h
              simpa using h
      · exact ih bargs pp e h

theorem errsFor_nil_iff (prev f : FieldR) :
    errsFor prev f = [] ↔ fieldAgree prev f := by
  unfold errsFor fieldAgree argsMatch
  simp only [List.append_eq_nil]
  rw [argErrs_eq_nil]
  constructor
  · rintro ⟨⟨h1, h2⟩, h3⟩
    refine ⟨?_, ?_, h3⟩
    · by_cases h : prev.name = f.name
      · exact h
      · rw [if_neg h] at h1
        exact absurd h1 (by simp)
    · by_cases h : prev.arguments.length = f.arguments.length
      · exact h
      · rw [if_neg h] at h2
        exact absurd h2 (by simp)
  · rintro ⟨h1, h2, h3⟩
    exact ⟨⟨by rw [if_pos h1], by rw [if_pos h2]⟩, h3⟩

theorem errsFor_mem (prev f : FieldR) :
    ∀ e ∈ errsFor prev f, e = ⟨prev.pos, f.pos⟩ := by
  intro e he
  unfold errsFor at he
  rcases List.mem_append.mp he with h | h
  · rcases List.mem_append.mp h with h2 | h2
    · by_cases hn : prev.name = f.name
      · rw [if_pos hn] at h2
        simp at h2
      · rw [if_neg hn] at h2
        simpa using h2
    · by_cases hl : prev.arguments.length = f.arguments.length
      · rw [if_pos hl] at h2
        simp at h2
      · rw [if_neg hl] at h2
        simpa using h2
  · exact argErrs_mem prev.arguments f.arguments ⟨prev.pos, f.pos⟩ e h

theorem argsMatch_refl (a : List (String × SValue))
    (hn : (a.map Prod.fst).Nodup) (hw : ∀ kv ∈ a, swf kv.2 = true) :
    argsMatch a a := by
  refine ⟨rfl, ?_⟩
  intro kv hm
  unfold argOkB
  rw [lookupAssoc_of_mem_nodup a hn kv.1 kv.2 hm]
  exact veq_refl kv.2 (hw kv hm)

theorem argsMatch_symm (a b : List (String × SValue))
    (haN : (a.map Prod.fst).Nodup) (hbN : (b.map Prod.fst).Nodup)
    (haW : ∀ kv ∈ a, swf kv.2 = true) (hbW : ∀ kv ∈ b, swf kv.2 = true) :
    argsMatch a b → argsMatch b a := by
  rintro ⟨hlen, hall⟩
  refine ⟨hlen.symm, ?_⟩
  have hsub : ∀ k, k ∈ a.map Prod.fst → k ∈ b.map Prod.fst := by
    intro k hk
    obtain ⟨kv, hm, hfst⟩ := List.mem_map.mp hk
    have hok := hall kv hm
    unfold argOkB at hok
    cases hf : lookupAssoc b kv.1 with
    | none => rw [hf] at hok; exact Bool.noConfusion hok
    | some w =>
        subst hfst
        rw [← lookupAssoc_isSome_iff, hf]
        rfl
  have hiff := assoc_key_iff a b haN hbN hsub hlen
  intro kv hm
  have hkb : kv.1 ∈ b.map Prod.fst := List.mem_map.mpr ⟨kv, hm, rfl⟩
  have hka : kv.1 ∈ a.map Prod.fst := (hiff kv.1).mpr hkb
  have hsa : (lookupAssoc a kv.1).isSome = true :=
    (lookupAssoc_isSome_iff a kv.1).mpr hka
  obtain ⟨v, hv⟩ := Option.isSome_iff_exists.mp hsa
  have hmv : (kv.1, v) ∈ a := lookupAssoc_some_mem a kv.1 v hv
  have hok := hall (kv.1, v) hmv
  unfold argOkB at hok ⊢
  have hlb : lookupAssoc b kv.1 = some kv.2 :=
    lookupAssoc_of_mem_nodup b hbN kv.1 kv.2 hm
  rw [hlb] at hok
  rw [hv]
  exact veq_symm v kv.2 (haW (kv.1, v) hmv) (hbW kv hm) hok

theorem argsMatch_trans (a b c : List (String × SValue))
    (haW : ∀ kv ∈ a, swf kv.2 = true) (hbW : ∀ kv ∈ b, swf kv.2 = true)
    (hcW : ∀ kv ∈ c, swf kv.2 = true) :
    argsMatch a b → argsMatch b c → argsMatch a c := by
  rintro ⟨hl1, h1⟩ ⟨hl2, h2⟩
  refine ⟨hl1.trans hl2, ?_⟩
  intro kv hm
  have hok1 := h1 kv hm
  unfold argOkB at hok1 ⊢
  cases hf : lookupAssoc b kv.1 with
  | none => rw [hf] at hok1; exact Bool.noConfusion hok1
  | some w =>
      rw [hf] at hok1
      have hmw : (kv.1, w) ∈ b := lookupAssoc_some_mem b kv.1 w hf
      have hok2 := h2 (kv.1, w) hmw
      unfold argOkB at hok2
      cases hg : lookupAssoc c kv.1 with
      | none => rw [hg] at hok2; exact Bool.noConfusion hok2
      | some u =>
          rw [hg] at hok2
          have hmu : (kv.1, u) ∈ c := lookupAssoc_some_mem c kv.1 u hg
          exact veq_trans kv.2 w u (haW kv hm) (hbW (kv.1, w) hmw)
            (hcW (kv.1, u) hmu) hok1 hok2

theorem fieldAgree_refl (f : FieldR) (hw : fieldWF f) : fieldAgree f f :=
  ⟨rfl, argsMatch_refl f.arguments hw.1 hw.2⟩

theorem fieldAgree_symm (f g : FieldR) (hwf : fieldWF f) (hwg : fieldWF g) :
    fieldAgree f g → fieldAgree g f := by
  rintro ⟨hn, hm⟩
  exact ⟨hn.symm, argsMatch_symm f.arguments g.arguments hwf.1 hwg.1
    hwf.2 hwg.2 hm⟩

theorem fieldAgree_trans (f g h : FieldR) (hwf : fieldWF f) (hwg : fieldWF g)
    (hwh : fieldWF h) : fieldAgree f g → fieldAgree g h → fieldAgree f h := by
  rintro ⟨hn1, hm1⟩ ⟨hn2, hm2⟩
  exact ⟨hn1.trans hn2, argsMatch_trans f.arguments g.arguments h.arguments
    hwf.2 hwg.2 hwh.2 hm1 hm2⟩

/-- The first field registered under a response key (the `outputs` map
stores the first occurrence). -/
def firstWith (fs : List FieldR) (k : String) : Option FieldR :=
  fs.find? (fun f => responseKey f = k)

theorem firstWith_cons (f : FieldR) (fs : List FieldR) (k : String) :
    firstWith (f :: fs) k =
      if responseKey f = k then some f else firstWith fs k := by
  by_cases h : responseKey f = k
  · rw [if_pos h]
    exact List.find?_cons_of_pos _ (by simp [h])
  · rw [if_neg h]
    exact List.find?_cons_of_neg _ (by simp [h])

theorem firstWith_append :
    ∀ (fs gs : List FieldR) (k : String),
      firstWith (fs ++ gs) k =
        match firstWith fs k with
        | some g => some g
        | none => firstWith gs k := by
  intro fs
  induction fs with
  | nil => intro gs k; rfl
  | cons f rest ih =>
      intro gs k
      rw [List.cons_append, firstWith_cons, firstWith_cons]
      by_cases h : responseKey f = k
      · rw [if_pos h, if_pos h]
      · rw [if_neg h, if_neg h, ih gs k]

theorem firstWith_some {fs : List FieldR} {k : String} {g : FieldR}
    (h : firstWith fs k = some g) : g ∈ fs ∧ responseKey g = k :=
  ⟨List.mem_of_find?_eq_some h, by simpa using List.find?_some h⟩

theorem firstWith_isSome_of_mem :
    ∀ (fs : List FieldR) (f : FieldR), f ∈ fs →
      ∃ g, firstWith fs (responseKey f) = some g := by
  intro fs
  induction fs with
  | nil => intro f h; cases h
  | cons x rest ih =>
      intro f h
      rw [firstWith_cons]
      by_cases hx : responseKey x = responseKey f
      · exact ⟨x, by rw [if_pos hx]⟩
      · rw [if_neg hx]
        rcases List.mem_cons.mp h with heq | hm
        · subst heq; exact absurd rfl hx
        · exact ih f hm

theorem lookupAssoc_append {α : Type} :
    ∀ (l1 l2 : List (String × α)) (k : String),
      lookupAssoc (l1 ++ l2) k =
        match lookupAssoc l1 k with
        | some v => some v
        | none => lookupAssoc l2 k := by
  intro l1
  induction l1 with
  | nil => intro l2 k; rfl
  | cons kv rest ih =>
      intro l2 k
      obtain ⟨k2, v⟩ := kv
      by_cases h : k2 = k
      · simp [lookupAssoc, h]
      · simp only [List.cons_append, lookupAssoc, if_neg h]
        exact ih l2 k

/-- The invariant the `outputs`/errors state satisfies after processing
a prefix of the expanded field list. -/
def InvC (processed : List FieldR)
    (st : List (String × FieldR) × List MergeErr) : Prop :=
  (∀ k, lookupAssoc st.1 k = firstWith processed k) ∧
  (st.2 = [] ↔ ∀ f ∈ processed, ∀ g,
    firstWith processed (responseKey f) = some g → fieldAgree g f) ∧
  (∀ e ∈ st.2, ∃ p q, p ∈ processed ∧ q ∈ processed ∧
    responseKey p = responseKey q ∧ ¬ fieldAgree p q ∧ e = ⟨p.pos, q.pos⟩)

theorem invC_init : InvC [] ([], []) := by
  refine ⟨fun k => rfl, by simp, by simp⟩

theorem invC_step (processed : List FieldR)
    (st : List (String × FieldR) × List MergeErr) (f : FieldR)
    (hwf : fieldWF f) (_hwp : ∀ x ∈ processed, fieldWF x)
    (hinv : InvC processed st) :
    InvC (processed ++ [f]) (collectStep st f) := by
  obtain ⟨hkeys, hiff, hmem⟩ := hinv
  unfold collectStep add_output
  cases hl : lookupAssoc st.1 (responseKey f) with
  | some prev =>
      have hfw : firstWith processed (responseKey f) = some prev := by
        rw [← hkeys]; exact hl
      obtain ⟨hprevmem, hprevkey⟩ := firstWith_some hfw
      refine ⟨?_, ?_, ?_⟩
      · intro k
        show lookupAssoc st.1 k = _
        rw [hkeys k, firstWith_append]
        cases hfk : firstWith processed k with
        | some g => rfl
        | none =>
            rw [firstWith_cons]
            by_cases hk : responseKey f = k
            · subst hk
              rw [hfw] at hfk
              cases hfk
            · rw [if_neg hk]
              rfl
      · show st.2 ++ errsFor prev f = [] ↔ _
        rw [List.append_eq_nil, hiff, errsFor_nil_iff]
        constructor
        · rintro ⟨hall, hagree⟩
          intro x hx g hg
          rcases List.mem_append.mp hx with hx1 | hx2
          · obtain ⟨g0, hg0⟩ := firstWith_isSome_of_mem processed x hx1
            rw [firstWith_append, hg0] at hg
            cases hg
            exact hall x hx1 g hg0
          · simp only [List.mem_singleton] at hx2
            subst hx2
            rw [firstWith_append, hfw] at hg
            cases hg
            exact hagree
        · intro hall
          constructor
          · intro x hx g hg
            have hg2 : firstWith (processed ++ [f]) (responseKey x) = some g := by
              rw [firstWith_append, hg]
            exact hall x (by simp [hx]) g hg2
          · have hg2 : firstWith (processed ++ [f]) (responseKey f) = some prev := by
              rw [firstWith_append, hfw]
            exact hall f (by simp) prev hg2
      · intro e he
        rcases List.mem_append.mp he with he1 | he2
        · obtain ⟨p, q, hp, hq, hkpq, hnag, hepq⟩ := hmem e he1
          exact ⟨p, q, by simp [hp], by simp [hq], hkpq, hnag, hepq⟩
        · have hepq := errsFor_mem prev f e he2
          refine ⟨prev, f, by simp [hprevmem], by simp, hprevkey, ?_, hepq⟩
          intro hag
          rw [← errsFor_nil_iff] at hag
          rw [hag] at he2
          cases he2
  | none =>
      have hfw : firstWith processed (responseKey f) = none := by
        rw [← hkeys]; exact hl
      refine ⟨?_, ?_, ?_⟩
      · intro k
        show lookupAssoc (st.1 ++ [(responseKey f, f)]) k = _
        rw [lookupAssoc_append, hkeys k, firstWith_append]
        cases hfk : firstWith processed k with
        | some g => rfl
        | none =>
            by_cases hk : responseKey f = k
            · simp [lookupAssoc, hk, firstWith_cons]
            · simp [lookupAssoc, hk, firstWith_cons, firstWith]
      · show st.2 = [] ↔ _
        rw [hiff]
        constructor
        · intro hall x hx g hg
          rcases List.mem_append.mp hx with hx1 | hx2
          · obtain ⟨g0, hg0⟩ := firstWith_isSome_of_mem processed x hx1
            rw [firstWith_append, hg0] at hg
            cases hg
            exact hall x hx1 g hg0
          · simp only [List.mem_singleton] at hx2
            rw [hx2] at hg ⊢
            rw [firstWith_append, hfw, firstWith_cons] at hg
            rw [if_pos rfl] at hg
            cases hg
            exact fieldAgree_refl f hwf
        · intro hall x hx g hg
          have hg2 : firstWith (processed ++ [f]) (responseKey x) = some g := by
            rw [firstWith_append, hg]
          exact hall x (by simp [hx]) g hg2
      · intro e he
        obtain ⟨p, q, hp, hq, hkpq, hnag, hepq⟩ := hmem e he
        exact ⟨p, q, by simp [hp], by simp [hq], hkpq, hnag, hepq⟩

theorem invC_fold :
    ∀ (fs processed : List FieldR)
      (st : List (String × FieldR) × List MergeErr),
      (∀ x ∈ processed, fieldWF x) → (∀ x ∈ fs, fieldWF x) →
      InvC processed st → InvC (processed ++ fs) (fs.foldl collectStep st) := by
  intro fs
  induction fs with
  | nil =>
      intro processed st _ _ h
      simpa using h
  | cons f rest ih =>
      intro processed st hwp hwf hinv
      have hstep := invC_step processed st f (hwf f (by simp)) hwp hinv
      have hrest := ih (processed ++ [f]) (collectStep st f)
        (by
          intro x hx
          rcases List.mem_append.mp hx with h | h
          · exact hwp x h
          · simp only [List.mem_singleton] at h
            rw [h]
            exact hwf f (by simp))
        (fun x hx => hwf x (by simp [hx])) hstep
      simpa [List.append_assoc] using hrest

theorem firstBased_iff_pairwise (fs : List FieldR)
    (hwf : ∀ x ∈ fs, fieldWF x) :
    (∀ f ∈ fs, ∀ g, firstWith fs (responseKey f) = some g → fieldAgree g f) ↔
    (∀ f ∈ fs, ∀ g ∈ fs, responseKey f = responseKey g → fieldAgree f g) := by
  constructor
  · intro hfirst f hf g hg hkey
    obtain ⟨h0, hh0⟩ := firstWith_isSome_of_mem fs f hf
    have hh0g : firstWith fs (responseKey g) = some h0 := by
      rw [← hkey]; exact hh0
    have ha1 := hfirst f hf h0 hh0
    have ha2 := hfirst g hg h0 hh0g
    obtain ⟨hmem0, _⟩ := firstWith_some hh0
    have hw0 := hwf h0 hmem0
    exact fieldAgree_trans f h0 g (hwf f hf) hw0 (hwf g hg)
      (fieldAgree_symm h0 f hw0 (hwf f hf) ha1) ha2
  · intro hpair f hf g hg
    obtain ⟨hmemg, hkeyg⟩ := firstWith_some hg
    exact hpair g hmemg f hf (by rw [hkeyg])

/-- C6: over the selection set with fragment spreads and inline
fragments expanded in place through the fragment map (`walkList`, at
any expansion depth), and with the `BTreeMap` argument invariant, the
`OverlappingFieldsCanBeMerged` check reports no error iff every two
selections sharing a response key agree on field name and argument set;
and every reported error carries the positions of two same-key fields
that do conflict. -/
theorem overlapping_fields_merge_spec
    (fm : List (String × List SelectionR)) (fuel : Nat)
    (sels : List SelectionR)
    (hwf : ∀ f ∈ walkList fm fuel sels, fieldWF f) :
    ((findList fm fuel ([], []) sels).2 = [] ↔
      ∀ f ∈ walkList fm fuel sels, ∀ g ∈ walkList fm fuel sels,
        responseKey f = responseKey g → fieldAgree f g) ∧
    (∀ e ∈ (findList fm fuel ([], []) sels).2,
      ∃ p ∈ walkList fm fuel sels, ∃ q ∈ walkList fm fuel sels,
        responseKey p = responseKey q ∧ ¬ fieldAgree p q ∧
          e = ⟨p.pos, q.pos⟩) := by
  rw [findList_eq_foldl]
  have hinv := invC_fold (walkList fm fuel sels) [] ([], [])
    (by intro x hx; cases hx) hwf invC_init
  simp only [List.nil_append] at hinv
  obtain ⟨hkeys, hiff, hmem⟩ := hinv
  constructor
  · rw [hiff]
    exact firstBased_iff_pairwise (walkList fm fuel sels) hwf
  · intro e he
    obtain ⟨p, q, hp, hq, hkpq, hnag, hepq⟩ := hmem e he
    exact ⟨p, hp, q, hq, hkpq, hnag, hepq⟩

/-- Witness for `overlapping_fields_merge_spec`: a one-field selection
set with no conflicting keys reports no error. -/
theorem overlapping_fields_merge_spec_witness :
    (findList [] 1 ([], [])
        [SelectionR.field ⟨⟨1, 3⟩, none, "hello", []⟩]).2 = [] :=
  (overlapping_fields_merge_spec [] 1
      [SelectionR.field ⟨⟨1, 3⟩, none, "hello", []⟩]
      (by
        intro f hf
        simp only [walkList, walkOne, List.append_nil, List.mem_singleton] at hf
        subst hf
        exact ⟨by simp, by simp⟩)).1.mpr
    (by
      intro f hf g hg _
      simp only [walkList, walkOne, List.append_nil, List.mem_singleton] at hf hg
      subst hf
      subst hg
      exact ⟨rfl, rfl, fun kv hm => absurd hm (List.not_mem_nil kv)⟩)

end GQL
